import Mathlib

/-!
Verification development for the `code-gap.py` gap-analysis tool.

The Python source is shallowly embedded: every component that the
properties below talk about (chunk builder, splitter, semantic grouper,
synthesis, Markdown rendering) is translated into an executable Lean
definition.  External collaborators (the tiktoken token counter, the
Python `ast` parser, the filesystem, the model call) are parameters,
exactly as the specification treats them: deterministic pure functions.
-/

namespace CodeGap

/-! ## Text primitives

Python strings are modelled by `String`; `str.split('\n')` and
`'\n'.join` are embedded via character-list recursion so that their
algebra (round trips, separator-freeness of the pieces) is provable.
-/

/-- `splitCh c l` is Python's `l.split(c)` on character lists:
`"" → [""]`, separators delimit possibly empty pieces. -/
def splitCh (c : Char) : List Char → List (List Char)
  | [] => [[]]
  | x :: xs =>
    match splitCh c xs with
    | [] => if x = c then [[], []] else [[x]]
    | p :: ps => if x = c then [] :: p :: ps else (x :: p) :: ps

/-- `joinCh c ps` is Python's `c.join(ps)` on character lists. -/
def joinCh (c : Char) : List (List Char) → List Char
  | [] => []
  | [p] => p
  | p :: q :: r => p ++ c :: joinCh c (q :: r)

/-- Python `content.split('\n')`, on `String`. -/
def pyLines (s : String) : List String :=
  (splitCh '\n' s.data).map String.mk

/-- Python `'\n'.join(...)`, on `String`. -/
def joinNL (ls : List String) : String :=
  String.mk (joinCh '\n' (ls.map String.data))

/-- A string that contains no newline character (one "line"). -/
def noNL (s : String) : Prop := '\n' ∉ s.data

instance (s : String) : Decidable (noNL s) := by unfold noNL; infer_instance

/-- Python `s[:k]` (character slice). -/
def pyTake (s : String) (k : Nat) : String := String.mk (s.data.take k)

/-! ## Sorting and string helpers

Python's `list.sort`/`sorted` is a stable ascending sort; a stable
insertion sort (inserting each element after every already-placed
element that compares `≤` to it, scanning left to right) is
extensionally equal to it, and reduces in the kernel. -/

/-- Insert `x` after every element `y` of the sorted prefix with
`le y x`. -/
def insertLe (le : α → α → Bool) (x : α) : List α → List α
  | [] => [x]
  | y :: ys => if le y x then y :: insertLe le x ys else x :: y :: ys

/-- Stable ascending sort (Python `sorted(..., key=...)` with `le` the
key comparison). -/
def pySorted (le : α → α → Bool) (l : List α) : List α :=
  l.foldl (fun acc x => insertLe le x acc) []

/-- Python `s.endswith(t)`. -/
def strEndsWith (s t : String) : Bool := List.isSuffixOf t.data s.data

/-- Python `s.startswith(t)`. -/
def strStartsWith (s t : String) : Bool := List.isPrefixOf t.data s.data

/-- Python `s.replace(a, b)` for single-character `a`, `b`. -/
def replaceCh (a b : Char) (s : String) : String :=
  String.mk (s.data.map (fun c => if c = a then b else c))

/-- Code-point comparison `s <= t` (Python string ordering). -/
def chListLe : List Char → List Char → Bool
  | [], _ => true
  | _ :: _, [] => false
  | a :: as, b :: bs =>
    if a.toNat < b.toNat then true
    else if b.toNat < a.toNat then false
    else chListLe as bs

/-- Python `s <= t` on strings. -/
def strLe (s t : String) : Bool := chListLe s.data t.data

/-! ## Data model

Mirrors the dictionaries produced by `_create_chunks` and the two
splitting helpers: a chunk is `{"files": [...], "tokens": n}` where each
file entry is `{"path", "content", "type"}` with type `"code"`/`"doc"`.
-/

/-- Origin tag of a file: `"code"` or `"doc"` in the source. -/
inductive FType where
  | code
  | doc
deriving DecidableEq, Repr

/-- One `{"path": ..., "content": ..., "type": ...}` entry of a chunk. -/
structure FileUnit where
  path : String
  content : String
  ftype : FType
deriving DecidableEq, Repr

/-- One `{"files": ..., "tokens": ...}` chunk. -/
structure Chunk where
  files : List FileUnit
  tokens : Nat
deriving DecidableEq, Repr

/-- The token counter `self._count_tokens` (tiktoken), an external
deterministic pure function per the specification. -/
abbrev TokenCount := String → Nat

/-- The joined text of a chunk's units (used to state round trips). -/
def chunkText (c : Chunk) : String := joinNL (c.files.map (·.content))

/-! ## `_split_by_lines` -/

/-- `path_suffix = f" ({name_suffix})" if name_suffix else ""`. -/
def pathSuffix (name : String) : String :=
  if name = "" then "" else " (" ++ name ++ ")"

/-- Loop of `_split_by_lines`, lines 241-262 of the source: state is the
buffered lines `current_lines` and their token total `current_tokens`;
emitted chunks are returned in order instead of appended to a list. -/
def splitLinesGo (tc : TokenCount) (maxTok : Nat) (fpath : String)
    (ft : FType) (sfx : String) :
    List String → List String → Nat → List Chunk
  | [], buf, tks =>
      if buf.isEmpty then []
      else [⟨[⟨fpath ++ sfx, joinNL buf, ft⟩], tks⟩]
  | l :: ls, buf, tks =>
      let lt := tc (l ++ "\n")
      if tks + lt > maxTok then
        if buf.isEmpty then
          let tr := pyTake l (maxTok / 4)
          ⟨[⟨fpath ++ " (truncated)", tr, ft⟩], tc tr⟩ ::
            splitLinesGo tc maxTok fpath ft sfx ls buf tks
        else
          ⟨[⟨fpath ++ sfx, joinNL buf, ft⟩], tks⟩ ::
            splitLinesGo tc maxTok fpath ft sfx ls [l] lt
      else splitLinesGo tc maxTok fpath ft sfx ls (buf ++ [l]) (tks + lt)

/-- `_split_by_lines(file_path, content, file_type, chunks, name_suffix)`:
the list of chunks it appends. -/
def splitByLines (tc : TokenCount) (maxTok : Nat) (fpath content : String)
    (ft : FType) (name : String) : List Chunk :=
  splitLinesGo tc maxTok fpath ft (pathSuffix name) (pyLines content) [] 0

/-- Token total of a buffer, as `_split_by_lines` accumulates it. -/
def sumLineTokens (tc : TokenCount) (buf : List String) : Nat :=
  (buf.map (fun l => tc (l ++ "\n"))).sum

/-! ## The Python syntax tree and `_split_large_file`

`ast.parse` is an external collaborator; its output is modelled by a
statement tree recording exactly what `_split_large_file` reads: kind,
name, `lineno`, `end_lineno`, and nested statements.  `ast.walk` is a
breadth-first traversal. -/

/-- A Python statement as far as the splitter is concerned. -/
inductive PyNode where
  | fnDef (name : String) (lineno : Nat) (endLineno : Option Nat) (body : List PyNode)
  | asyncFnDef (name : String) (lineno : Nat) (endLineno : Option Nat) (body : List PyNode)
  | clsDef (name : String) (lineno : Nat) (endLineno : Option Nat) (body : List PyNode)
  | stmtNode (body : List PyNode)

/-- Child statements of a node (what `ast.walk` enqueues). -/
def PyNode.children : PyNode → List PyNode
  | .fnDef _ _ _ b => b
  | .asyncFnDef _ _ _ b => b
  | .clsDef _ _ _ b => b
  | .stmtNode b => b

mutual

def PyNode.size : PyNode → Nat
  | .fnDef _ _ _ b => 1 + sizeL b
  | .asyncFnDef _ _ _ b => 1 + sizeL b
  | .clsDef _ _ _ b => 1 + sizeL b
  | .stmtNode b => 1 + sizeL b

def sizeL : List PyNode → Nat
  | [] => 0
  | n :: ns => PyNode.size n + sizeL ns

end

/-- `ast.walk`, breadth-first level by level, with explicit fuel so the
kernel can evaluate it; `sizeL` fuel always suffices (see
`astWalk_perm_dfsL`). -/
def astWalkF : Nat → List PyNode → List PyNode
  | _, [] => []
  | 0, _ :: _ => []
  | k + 1, n :: ns => (n :: ns) ++ astWalkF k ((n :: ns).flatMap PyNode.children)

/-- `ast.walk`: breadth-first traversal, level by level. -/
def astWalk (ns : List PyNode) : List PyNode := astWalkF (sizeL ns) ns

/-- `ast.walk(tree)` where `tree` is the parsed module: the module node
itself is yielded first (it is neither a function nor a class, so the
span collectors ignore it). -/
def astWalkModule (body : List PyNode) : List PyNode :=
  astWalk [PyNode.stmtNode body]

mutual

/-- Depth-first enumeration of a statement and its descendants
(independent of `astWalk`; used to state what "all definitions at any
nesting depth" means). -/
def dfsNodes (n : PyNode) : List PyNode := n :: dfsL n.children
  termination_by 2 * n.size
  decreasing_by
    have h : sizeL n.children < n.size := by
      cases n <;> simp [PyNode.size, PyNode.children]
    omega

def dfsL : List PyNode → List PyNode
  | [] => []
  | n :: ns => dfsNodes n ++ dfsL ns
  termination_by l => 2 * sizeL l + 1
  decreasing_by
    all_goals simp only [sizeL]
    all_goals have h : 1 ≤ PyNode.size n := by cases n <;> simp [PyNode.size]
    all_goals omega

end

/-! ### Span collection (source lines 203-213) -/

/-- A `(lineno, end, label)` triple as built by `_split_large_file`. -/
abbrev Span := Nat × Nat × String

/-- `node.end_lineno or len(content.split('\n'))`: Python's `or`
falls back both when `end_lineno` is `None` and when it is `0`. -/
def pyOrDefault (e : Option Nat) (d : Nat) : Nat :=
  match e with
  | none => d
  | some 0 => d
  | some (k + 1) => k + 1

/-- The entry `functions.append(...)` makes for a node, if any. -/
def nodeFnSpan (total : Nat) : PyNode → Option Span
  | .fnDef name ln el _ => some (ln, pyOrDefault el total, "def " ++ name)
  | .asyncFnDef name ln el _ => some (ln, pyOrDefault el total, "def " ++ name)
  | _ => none

/-- The entry `classes.append(...)` makes for a node, if any. -/
def nodeClsSpan (total : Nat) : PyNode → Option Span
  | .clsDef name ln el _ => some (ln, pyOrDefault el total, "class " ++ name)
  | _ => none

/-- `sorted(functions + classes, key=lambda x: x[0])` comparator
(Python's sort is stable, as is `List.mergeSort`). -/
def spanLe (a b : Span) : Bool := a.1 ≤ b.1

/-- `all_items`: every function/class definition found by `ast.walk`
over the whole tree, sorted by start line. -/
def collectSpans (body : List PyNode) (total : Nat) : List Span :=
  let ns := astWalkModule body
  pySorted spanLe ((ns.filterMap (nodeFnSpan total)) ++ (ns.filterMap (nodeClsSpan total)))

/-- Modelled from the spec: "collect every top-level function and class
definition's start/end line span" — only the module's immediate
children, sorted by start line.  Stated for comparison with
`collectSpans`, which is what the code computes. -/
def topLevelSpans (body : List PyNode) (total : Nat) : List Span :=
  pySorted spanLe ((body.filterMap (nodeFnSpan total)) ++ (body.filterMap (nodeClsSpan total)))

/-- The function/class definition spans at every nesting depth, in
depth-first order (unsorted). -/
def allSpansDfs (body : List PyNode) (total : Nat) : List Span :=
  (dfsL body).filterMap (nodeFnSpan total) ++ (dfsL body).filterMap (nodeClsSpan total)

/-- `ast.parse`: external collaborator, `none` models a raised
exception (the `except` fallback of lines 228-230). -/
abbrev PyParse := String → Option (List PyNode)

/-- `f"File: {file_path}\n\n{content}"` (line 171). -/
def frameFile (p content : String) : String := "File: " ++ p ++ "\n\n" ++ content

/-- `f"File: {file_path} ({name})\n\n{chunk_content}"` (line 218). -/
def frameSpan (p label content : String) : String :=
  "File: " ++ p ++ " (" ++ label ++ ")\n\n" ++ content

/-- `'\n'.join(lines[start-1:end])`: Python slice `lines[start-1:end]`
is `(lines.drop (start-1)).take (end-(start-1))` (CPython line numbers
are ≥ 1, so the clamped `Nat` subtraction agrees with the slice). -/
def spanFragment (lines : List String) (sp : Span) : String :=
  joinNL ((lines.drop (sp.1 - 1)).take (sp.2.1 - (sp.1 - 1)))

/-- Body of the per-span loop of `_split_large_file` (lines 216-226). -/
def processSpan (tc : TokenCount) (maxTok : Nat) (fpath : String)
    (ft : FType) (lines : List String) (sp : Span) : List Chunk :=
  if tc (frameSpan fpath sp.2.2 (spanFragment lines sp)) > maxTok then
    splitByLines tc maxTok fpath (spanFragment lines sp) ft sp.2.2
  else
    [⟨[⟨fpath ++ " (" ++ sp.2.2 ++ ")", spanFragment lines sp, ft⟩],
      tc (frameSpan fpath sp.2.2 (spanFragment lines sp))⟩]

/-- `_split_large_file(file_path, content, file_type, chunks)`: the
chunks it appends. -/
def splitLargeFile (tc : TokenCount) (maxTok : Nat) (pyParse : PyParse)
    (fpath content : String) (ft : FType) : List Chunk :=
  if ft = FType.code ∧ strEndsWith fpath ".py" then
    match pyParse content with
    | some body =>
      (collectSpans body (pyLines content).length).flatMap
        (processSpan tc maxTok fpath ft (pyLines content))
    | none => splitByLines tc maxTok fpath content ft ""
  else splitByLines tc maxTok fpath content ft ""

/-! ## `_create_chunks` (the Chunk Builder) -/

/-- The filesystem below one repository root: `none` = no file at the
path, `some none` = a file whose bytes do not decode as text
(`UnicodeDecodeError`), `some (some content)` = a text file. -/
abbrev FileSys := String → Option (Option String)

/-- Lines 150-162: check the code root first, then the docs root. -/
def resolveFile (fsCode fsDocs : FileSys) (p : String) :
    Option (FType × Option String) :=
  match fsCode p with
  | some r => some (FType.code, r)
  | none =>
    match fsDocs p with
    | some r => some (FType.doc, r)
    | none => none

/-- Loop of `_create_chunks` (lines 150-194): state is the in-progress
chunk `current_chunk_files` / `current_chunk_tokens`. -/
def createChunksGo (tc : TokenCount) (maxTok : Nat) (pyParse : PyParse)
    (fsCode fsDocs : FileSys) :
    List String → List FileUnit → Nat → List Chunk
  | [], cur, tks => if cur.isEmpty then [] else [⟨cur, tks⟩]
  | p :: ps, cur, tks =>
    match resolveFile fsCode fsDocs p with
    | none => createChunksGo tc maxTok pyParse fsCode fsDocs ps cur tks
    | some (_, none) => createChunksGo tc maxTok pyParse fsCode fsDocs ps cur tks
    | some (ft, some content) =>
      if tc (frameFile p content) > maxTok then
        (if cur.isEmpty then [] else [⟨cur, tks⟩])
          ++ splitLargeFile tc maxTok pyParse p content ft
          ++ createChunksGo tc maxTok pyParse fsCode fsDocs ps [] 0
      else if tks + tc (frameFile p content) > maxTok then
        ⟨cur, tks⟩ ::
          createChunksGo tc maxTok pyParse fsCode fsDocs ps
            [⟨p, content, ft⟩] (tc (frameFile p content))
      else
        createChunksGo tc maxTok pyParse fsCode fsDocs ps
          (cur ++ [⟨p, content, ft⟩]) (tks + tc (frameFile p content))

/-- `_create_chunks(file_paths, code_repo_path, docs_repo_path)`. -/
def createChunks (tc : TokenCount) (maxTok : Nat) (pyParse : PyParse)
    (fsCode fsDocs : FileSys) (paths : List String) : List Chunk :=
  createChunksGo tc maxTok pyParse fsCode fsDocs paths [] 0

/-! ## `_analyze_chunk`, `synthesize_results`, `generate_markdown_report`

The model invocation is external: per the specification it is a pure
function from the ordered list of labeled text blocks to raw response
text or failure (`Except.error` = a raised exception, caught at line
291); `json.loads` is a second external pure function from text to a
structured result or failure (also caught by the same handler).  A JSON
object is modelled by optional fields: `none` = key absent. -/

/-- One gap dictionary; every key may be absent. -/
structure Gap where
  gtype : Option String
  severity : Option String
  file : Option String
  description : Option String
  suggested_change : Option String
deriving DecidableEq, Repr

/-- One per-chunk result dictionary (`AnalysisResult`). -/
structure AnalysisResult where
  summary : Option String
  error : Option String
  gaps : Option (List Gap)
  files_analyzed : Option (List String)
  structured : Option Bool
deriving DecidableEq, Repr

/-- The external model call: chunk file list to raw response text. -/
abbrev ModelCall := List FileUnit → Except String String

/-- `json.loads` plus field extraction: raw text to result or raised
exception. -/
abbrev JsonParse := String → Except String AnalysisResult

/-- The record built by the `except` handler of `_analyze_chunk`
(lines 291-297). -/
def errResult (ch : Chunk) (e : String) : AnalysisResult :=
  ⟨none, some e, none, some (ch.files.map (·.path)), some false⟩

/-- `_analyze_chunk(chunk)`: any exception from the call or from JSON
decoding yields the error record; a decoded object is returned as-is. -/
def analyzeChunk (mc : ModelCall) (jp : JsonParse) (ch : Chunk) : AnalysisResult :=
  match mc ch.files with
  | .error e => errResult ch e
  | .ok txt =>
    match jp txt with
    | .error e => errResult ch e
    | .ok r => r

/-- The sequential per-chunk loop of `main` (lines 427-430). -/
def runAnalysis (mc : ModelCall) (jp : JsonParse) (chunks : List Chunk) :
    List AnalysisResult :=
  chunks.map (analyzeChunk mc jp)

/-- `severity_order.get(x.get("severity", "low"), 3)`. -/
def sevKey (g : Gap) : Nat :=
  match g.severity.getD "low" with
  | "critical" => 0
  | "high" => 1
  | "medium" => 2
  | "low" => 3
  | _ => 3

/-- Sort comparator of `all_gaps.sort(key=...)`. -/
def gapLe (a b : Gap) : Bool := sevKey a ≤ sevKey b

/-- A result contributes to synthesis unless it has an `error` key or
lacks the `gaps` key (line 342). -/
def contributes (r : AnalysisResult) : Bool := r.error.isNone && r.gaps.isSome

/-- The synthesized report data. -/
structure SynthResult where
  summary : String
  gaps : List Gap
  files_analyzed : List String
deriving DecidableEq, Repr

/-- `synthesize_results(chunk_results)` (lines 336-362). -/
def synthesizeResults (rs : List AnalysisResult) : SynthResult :=
  let contributing := rs.filter contributes
  let files := (contributing.flatMap (fun r => r.files_analyzed.getD [])).dedup
  let allGaps := contributing.flatMap (fun r => r.gaps.getD [])
  let sortedGaps := pySorted gapLe allGaps
  let criticalCount :=
    (sortedGaps.filter (fun g => g.severity == some "critical")).length
  let highCount :=
    (sortedGaps.filter (fun g => g.severity == some "high")).length
  { summary := "Analyzed " ++ toString files.length ++ " files and found "
      ++ toString allGaps.length ++ " gaps. Priority: "
      ++ toString criticalCount ++ " critical and " ++ toString highCount
      ++ " high-severity issues require immediate attention."
    gaps := sortedGaps
    files_analyzed := pySorted strLe files }

/-- One rendered gap (lines 380-385). -/
def gapBlock (g : Gap) : String :=
  "**File:** `" ++ g.file.getD "N/A" ++ "`\n\n" ++
  "**Type:** " ++ g.gtype.getD "N/A" ++ "\n\n" ++
  "**Description:** " ++ g.description.getD "No description" ++ "\n\n" ++
  "**Suggested Change:** " ++ g.suggested_change.getD "No suggestion" ++ "\n\n" ++
  "---\n\n"

/-- `severity.title()` for the four rendered severities. -/
def sevTitle : String → String
  | "critical" => "Critical"
  | "high" => "High"
  | "medium" => "Medium"
  | "low" => "Low"
  | sv => sv

/-- One severity section (empty when no gap has that severity; gap
grouping keys are `gap.get('severity', 'low')`). -/
def sevSection (gaps : List Gap) (sv : String) : String :=
  let bucket := gaps.filter (fun g => g.severity.getD "low" == sv)
  if bucket.isEmpty then ""
  else "### " ++ sevTitle sv ++ " Severity\n\n" ++ String.join (bucket.map gapBlock)

/-- `generate_markdown_report(results)` (lines 364-389). -/
def generateMarkdownReport (res : SynthResult) : String :=
  let header := "# Code-Documentation Gap Analysis Report\n\n## Summary\n\n"
    ++ res.summary ++ "\n\n"
  if res.gaps.isEmpty then
    header ++ "## ✅ No Gaps Found\n\nCongratulations! The analysis did not find any significant gaps between the code and documentation.\n\n"
  else
    header ++ "## Identified Gaps\n\n"
      ++ String.join (["critical", "high", "medium", "low"].map
          (sevSection res.gaps))

/-! ## `_group_files_semantically` (the Semantic Grouper)

The extractor's walk is an external collaborator; its output is the
input here.  CPython's `set` iterates in a hash-dependent order that is
not stable across processes, so every point where the source iterates
or lists a set (`for file1 in file_groups[dir1]`, `list(files)`) is
parameterised by an enumeration function `SetEnum` standing for the
runtime's iteration order; a set itself is carried as the list of its
insertions. -/

/-- What `_group_files_semantically` reads from `code_structure`:
`files` as the insertion-ordered mapping relative path ↦ owning
directory, and `imports` as relative path ↦ extracted import strings
(the extractor's `list(v)` of each import set). -/
structure RepoStructure where
  files : List (String × String)
  imports : List (String × List String)

/-- `file_groups`: directory key ↦ member files (a `set`, carried as
the insertion list). -/
abbrev FG := List (String × List String)

/-- The runtime's set-iteration order. -/
abbrev SetEnum := List String → List String

def fgContains (fg : FG) (k : String) : Bool := (List.lookup k fg).isSome

def fgGet (fg : FG) (k : String) : List String := (List.lookup k fg).getD []

/-- `file_groups[directory].add(file_path)` with `defaultdict(set)`. -/
def addFileToGroup (fg : FG) (dir f : String) : FG :=
  match fg with
  | [] => [(dir, [f])]
  | (k, v) :: t =>
    if k = dir then (k, v ++ [f]) :: t else (k, v) :: addFileToGroup t dir f

/-- Initial grouping by directory (lines 100-105). -/
def initFileGroups (st : RepoStructure) : FG :=
  st.files.foldl (fun fg pf => addFileToGroup fg pf.2 pf.1) []

/-- `code_structure["imports"]` lookup; an absent key behaves as the
empty list under the `file1 in imports` guard. -/
def importsOf (st : RepoStructure) (f : String) : List String :=
  (List.lookup f st.imports).getD []

/-- Line 124: `import_path.startswith(dir2.replace('/', '.')) or
import_path.startswith(dir2.replace('\\', '.'))`. -/
def impMatches (ip dir2 : String) : Bool :=
  strStartsWith ip (replaceCh '/' '.' dir2)
    || strStartsWith ip (replaceCh '\\' '.' dir2)

/-- Lines 120-128: scan the files of `dir1`; a matching file appends
`(dir1, dir2)` once; the loop breaks as soon as the global accumulator
is non-empty (even if it was already non-empty on entry). -/
def scanFiles (imps : String → List String) (d1 d2 : String)
    (acc : List (String × String)) : List String → List (String × String)
  | [] => acc
  | f :: fs =>
    let acc2 := if (imps f).any (fun ip => impMatches ip d2)
      then acc ++ [(d1, d2)] else acc
    if acc2.isEmpty then scanFiles imps d1 d2 acc2 fs else acc2

/-- Lines 115-130: the `dir2` loop (breaks once the accumulator is
non-empty; dead groups are skipped). -/
def scanD2 (fg : FG) (enum : SetEnum) (imps : String → List String)
    (d1 : String) (acc : List (String × String)) :
    List String → List (String × String)
  | [] => acc
  | d2 :: rest =>
    if fgContains fg d1 && fgContains fg d2 then
      let acc2 := scanFiles imps d1 d2 acc (enum (fgGet fg d1))
      if acc2.isEmpty then scanD2 fg enum imps d1 acc2 rest else acc2
    else scanD2 fg enum imps d1 acc rest

/-- Line 114: the `dir1` loop has no break, so later `dir1` values are
still visited after a pair was found. -/
def scanD1 (fg : FG) (enum : SetEnum) (imps : String → List String)
    (acc : List (String × String)) : List String → List (String × String)
  | [] => acc
  | d1 :: rest => scanD1 fg enum imps (scanD2 fg enum imps d1 acc rest) rest

/-- One full pairwise scan: the `groups_to_merge` it collects. -/
def collectMerges (fg : FG) (enum : SetEnum)
    (imps : String → List String) : List (String × String) :=
  scanD1 fg enum imps [] (fg.map Prod.fst)

/-- `file_groups[dir1].update(file_groups[dir2])` (set union). -/
def setUnion (a b : List String) : List String :=
  a ++ b.filter (fun x => !a.contains x)

def fgUpdate (fg : FG) (k : String) (v : List String) : FG :=
  fg.map (fun kv => if kv.1 = k then (k, v) else kv)

/-- `del file_groups[dir2]`. -/
def fgErase (fg : FG) (k : String) : FG :=
  match fg with
  | [] => []
  | (k2, v) :: t => if k2 = k then t else (k2, v) :: fgErase t k

/-- Lines 133-137: execute the collected merges in order, skipping
pairs whose groups were already merged away; returns the new groups and
the number of merges executed (`changed` = the count is non-zero). -/
def applyMerges (fg : FG) : List (String × String) → FG × Nat
  | [] => (fg, 0)
  | (d1, d2) :: rest =>
    if fgContains fg d1 && fgContains fg d2 then
      let fg2 := fgErase (fgUpdate fg d1 (setUnion (fgGet fg d1) (fgGet fg d2))) d2
      let r := applyMerges fg2 rest
      (r.1, r.2 + 1)
    else applyMerges fg rest

/-- The `while changed` loop (lines 108-137), with explicit fuel; fuel
`fg.length + 1` always reaches the fixed point (`grouper_terminates`). -/
def groupLoopF (enum : SetEnum) (imps : String → List String) :
    Nat → FG → FG
  | 0, fg => fg
  | k + 1, fg =>
    let r := applyMerges fg (collectMerges fg enum imps)
    if r.2 = 0 then r.1 else groupLoopF enum imps k r.1

/-- Total number of merges the loop executes. -/
def groupLoopCountF (enum : SetEnum) (imps : String → List String) :
    Nat → FG → Nat
  | 0, _ => 0
  | k + 1, fg =>
    let r := applyMerges fg (collectMerges fg enum imps)
    if r.2 = 0 then 0 else r.2 + groupLoopCountF enum imps k r.1

/-- `_group_files_semantically(code_structure)`:
`[list(files) for files in file_groups.values()]`. -/
def groupFiles (st : RepoStructure) (enum : SetEnum) : List (List String) :=
  let fg := initFileGroups st
  (groupLoopF enum (importsOf st) (fg.length + 1) fg).map (fun kv => enum kv.2)

/-- Total merges executed for a structure. -/
def groupMergeCount (st : RepoStructure) (enum : SetEnum) : Nat :=
  let fg := initFileGroups st
  groupLoopCountF enum (importsOf st) (fg.length + 1) fg

/-! ## The full pipeline (`main`, minus the external walk and I/O) -/

/-- Steps 2-6 of `main`: group, chunk, analyze, synthesize, render. -/
def runPipeline (tc : TokenCount) (maxTok : Nat) (pyParse : PyParse)
    (fsCode fsDocs : FileSys) (st : RepoStructure) (enum : SetEnum)
    (mc : ModelCall) (jp : JsonParse) : String :=
  let groups := groupFiles st enum
  let chunks := groups.flatMap (createChunks tc maxTok pyParse fsCode fsDocs)
  generateMarkdownReport (synthesizeResults (runAnalysis mc jp chunks))

/-! ## Concrete fixtures for witnesses and counterexamples -/

/-- A token counter for concrete runs: one token per character. -/
def tcLen : TokenCount := fun s => s.length

/-- An empty repository root. -/
def fsNone : FileSys := fun _ => none

/-- A parser that always fails (used where no `.py` file is parsed). -/
def parseNone : PyParse := fun _ => none

/-- A root holding one small text file `a.txt`. -/
def fsSmall : FileSys := fun p => if p = "a.txt" then some (some "hi") else none

/-- A root with a text file, a binary file and nothing else. -/
def fsMixed : FileSys := fun p =>
  if p = "t.md" then some (some "ok")
  else if p = "b.bin" then some none
  else none

/-- Module with a class whose body holds a method: the nested `def` is
what `ast.walk` finds beyond the top level. -/
def bodyNested : List PyNode :=
  [PyNode.clsDef "C" 1 (some 3) [PyNode.fnDef "m" 2 (some 3) []]]

def parseNested : PyParse := fun _ => some bodyNested

def contentNested : String := "class C:\n def m(s):\n  p"

/-- Module of a file with one top-level statement (line 1) followed by
one function (lines 2-3): the statement's line is outside every span. -/
def bodyPre : List PyNode := [PyNode.stmtNode [], PyNode.fnDef "f" 2 (some 3) []]

def parsePre : PyParse := fun _ => some bodyPre

def contentPre : String := "xxxxxxxxxxxxxxxxxxxxxxxxxxxxxxxx\ndef f():\n p"

/-- One chunk for the model-call fixtures. -/
def chunkC4 : Chunk := ⟨[⟨"p.md", "c", FType.doc⟩], 9⟩

/-- A model call returning valid but gap-less JSON text. -/
def mcOkEmpty : ModelCall := fun _ => .ok "{}"

/-- A model call that raises. -/
def mcErr : ModelCall := fun _ => .error "boom"

/-- A parse producing a well-formed object with no `gaps` key. -/
def jpNoGaps : JsonParse := fun _ => .ok ⟨some "s", none, none, none, none⟩

/-- A parse that raises (malformed JSON). -/
def jpBad : JsonParse := fun _ => .error "bad json"

/-- A gap carrying only a severity. -/
def gapSev (sv : String) : Gap := ⟨none, some sv, none, none, none⟩

/-- One structured result whose gaps arrive as low, critical, medium,
high. -/
def resultsSevs : List AnalysisResult :=
  [⟨none, none, some [gapSev "low", gapSev "critical", gapSev "medium",
    gapSev "high"], none, none⟩]

/-- A gap with an unrecognized severity string. -/
def gapU : Gap :=
  ⟨some "missing_documentation", some "banana", some "u.py", some "U", none⟩

/-- A gap with no severity key at all. -/
def gapV : Gap :=
  ⟨some "outdated_documentation", none, some "v.py", some "V", none⟩

/-- A high-severity gap. -/
def gapH : Gap := ⟨none, some "high", some "h.py", some "H", none⟩

def resultsMixed : List AnalysisResult :=
  [⟨some "s", none, some [gapU, gapV, gapH], none, none⟩]

/-- Two files in one directory, no imports. -/
def stAB : RepoStructure := ⟨[("a", "root"), ("b", "root")], []⟩

def fsAB : FileSys := fun p =>
  if p = "a" then some (some "x")
  else if p = "b" then some (some "y") else none

/-- A deterministic model stub: echoes the first display path. -/
def mcEcho : ModelCall := fun fus => .ok ((fus.head?.map (·.path)).getD "")

/-- A deterministic parse stub: one low gap naming the echoed path. -/
def jpEcho : JsonParse := fun t =>
  .ok ⟨some "s", none, some [⟨none, some "low", some t, none, none⟩], none, none⟩

/-- Two directories; a file of `a` imports `b.y`, so the groups merge. -/
def stImp : RepoStructure :=
  ⟨[("a/x.py", "a"), ("b/y.py", "b")], [("a/x.py", ["b.y"])]⟩

def fgEx : FG := [("a", ["a/x.py"]), ("b", ["b/y.py"])]

/-! ## Theorems -/

theorem splitCh_ne_nil (c : Char) (l : List Char) : splitCh c l ≠ [] := by
  induction l with
  | nil => simp [splitCh]
  | cons x xs ih =>
    simp only [splitCh]
    cases h : splitCh c xs with
    | nil => simp only [h]; split <;> simp
    | cons p ps => simp only [h]; split <;> simp

theorem joinCh_splitCh (c : Char) (l : List Char) :
    joinCh c (splitCh c l) = l := by
  induction l with
  | nil => simp [splitCh, joinCh]
  | cons x xs ih =>
    simp only [splitCh]
    cases h : splitCh c xs with
    | nil => exact absurd h (splitCh_ne_nil c xs)
    | cons p ps =>
      rw [h] at ih
      by_cases hx : x = c
      · subst hx
        simp only [if_pos rfl]
        cases ps with
        | nil => simp [joinCh] at ih ⊢; exact ih
        | cons q r => simp [joinCh] at ih ⊢; exact ih
      · simp only [if_neg hx]
        cases ps with
        | nil => simp [joinCh] at ih ⊢; exact ih
        | cons q r => simp [joinCh] at ih ⊢; exact ih

theorem not_mem_of_mem_splitCh {c : Char} {l : List Char} {p : List Char}
    (hp : p ∈ splitCh c l) : c ∉ p := by
  induction l generalizing p with
  | nil =>
    simp only [splitCh, List.mem_singleton] at hp
    subst hp; simp
  | cons x xs ih =>
    simp only [splitCh] at hp
    cases h : splitCh c xs with
    | nil => exact absurd h (splitCh_ne_nil c xs)
    | cons q ps =>
      simp only [h] at hp
      by_cases hx : x = c
      · rw [if_pos hx] at hp
        rcases List.mem_cons.mp hp with rfl | hp2
        · simp
        · exact ih (by rw [h]; exact hp2)
      · rw [if_neg hx] at hp
        rcases List.mem_cons.mp hp with rfl | hp2
        · intro hmem
          rcases List.mem_cons.mp hmem with rfl | hmem
          · exact hx rfl
          · exact ih (by rw [h]; exact List.mem_cons_self q ps) hmem
        · exact ih (by rw [h]; exact List.mem_cons_of_mem q hp2)

theorem joinNL_pyLines (s : String) : joinNL (pyLines s) = s := by
  show String.mk (joinCh '\n' (((splitCh '\n' s.data).map String.mk).map String.data)) = s
  have hc : (String.data ∘ String.mk) = (id : List Char → List Char) := by
    funext p; rfl
  rw [List.map_map, hc, List.map_id, joinCh_splitCh]

theorem noNL_of_mem_pyLines {s l : String} (h : l ∈ pyLines s) : noNL l := by
  rcases List.mem_map.mp h with ⟨p, hp, rfl⟩
  exact not_mem_of_mem_splitCh hp

theorem pyLines_ne_nil (s : String) : pyLines s ≠ [] := by
  unfold pyLines
  intro h
  exact splitCh_ne_nil '\n' s.data (List.map_eq_nil_iff.mp h)

theorem mk_append (a b : List Char) :
    String.mk (a ++ b) = String.mk a ++ String.mk b := rfl

theorem joinNL_cons_of_ne_nil (a : String) {as : List String} (h : as ≠ []) :
    joinNL (a :: as) = a ++ "\n" ++ joinNL as := by
  unfold joinNL
  cases as with
  | nil => exact absurd rfl h
  | cons b bs =>
    show String.mk (a.data ++ '\n' :: joinCh '\n' (b.data :: bs.map String.data)) = _
    have : a.data ++ '\n' :: joinCh '\n' (b.data :: bs.map String.data)
        = (a.data ++ ['\n']) ++ joinCh '\n' (b.data :: bs.map String.data) := by
      simp
    rw [this, mk_append]
    rfl

theorem joinNL_singleton (a : String) : joinNL [a] = a := by
  unfold joinNL joinCh
  rfl

theorem joinNL_append {as bs : List String} (ha : as ≠ []) (hb : bs ≠ []) :
    joinNL (as ++ bs) = joinNL as ++ "\n" ++ joinNL bs := by
  induction as with
  | nil => exact absurd rfl ha
  | cons a rest ih =>
    cases rest with
    | nil =>
      rw [List.singleton_append, joinNL_cons_of_ne_nil a hb, joinNL_singleton]
    | cons r rs =>
      have h1 : r :: rs ≠ [] := by simp
      have h2 : r :: rs ++ bs ≠ [] := by simp
      rw [List.cons_append, joinNL_cons_of_ne_nil a h2,
        joinNL_cons_of_ne_nil a h1, ih h1]
      simp [String.append_assoc]

theorem noNL_pyTake {s : String} (h : noNL s) (k : Nat) : noNL (pyTake s k) := by
  unfold noNL pyTake at *
  intro hmem
  exact h (List.mem_of_mem_take hmem)

theorem insertLe_perm (le : α → α → Bool) (x : α) (l : List α) :
    List.Perm (insertLe le x l) (x :: l) := by
  induction l with
  | nil => exact List.Perm.refl _
  | cons y ys ih =>
    simp only [insertLe]
    split
    · exact ((ih.cons y).trans (List.Perm.swap x y ys))
    · exact List.Perm.refl _

theorem foldl_insertLe_perm (le : α → α → Bool) :
    ∀ (l acc : List α),
      List.Perm (l.foldl (fun acc x => insertLe le x acc) acc) (acc ++ l) := by
  intro l
  induction l with
  | nil => intro acc; simp
  | cons x t ih =>
    intro acc
    simp only [List.foldl_cons]
    refine (ih (insertLe le x acc)).trans ?_
    have h1 : List.Perm (insertLe le x acc ++ t) ((x :: acc) ++ t) :=
      List.Perm.append_right t (insertLe_perm le x acc)
    refine h1.trans ?_
    simp only [List.cons_append]
    exact (List.perm_middle).symm

theorem pySorted_perm (le : α → α → Bool) (l : List α) :
    List.Perm (pySorted le l) l := by
  simpa using foldl_insertLe_perm le l []

theorem insertLe_pairwise (le : α → α → Bool)
    (htot : ∀ a b, le a b || le b a)
    (htrans : ∀ a b c, le a b = true → le b c = true → le a c = true)
    (x : α) {l : List α} (hl : List.Pairwise (fun a b => le a b = true) l) :
    List.Pairwise (fun a b => le a b = true) (insertLe le x l) := by
  induction l with
  | nil => simp [insertLe]
  | cons y ys ih =>
    rcases List.pairwise_cons.mp hl with ⟨hy, hys⟩
    simp only [insertLe]
    split
    · rename_i hle
      refine List.pairwise_cons.mpr ⟨?_, ih hys⟩
      intro z hz
      rcases List.mem_cons.mp ((insertLe_perm le x ys).mem_iff.mp hz) with rfl | hz2
      · exact hle
      · exact hy z hz2
    · rename_i hnle
      have hxy : le x y = true := by
        have h4 := htot y x
        cases h5 : le y x with
        | true => exact absurd h5 hnle
        | false => rw [h5] at h4; simpa using h4
      refine List.pairwise_cons.mpr ⟨?_, hl⟩
      intro z hz
      rcases List.mem_cons.mp hz with rfl | hz2
      · exact hxy
      · exact htrans x y z hxy (hy z hz2)

theorem pySorted_pairwise (le : α → α → Bool)
    (htot : ∀ a b, le a b || le b a)
    (htrans : ∀ a b c, le a b = true → le b c = true → le a c = true)
    (l : List α) :
    List.Pairwise (fun a b => le a b = true) (pySorted le l) := by
  unfold pySorted
  have H : ∀ (l acc : List α), List.Pairwise (fun a b => le a b = true) acc →
      List.Pairwise (fun a b => le a b = true)
        (l.foldl (fun acc x => insertLe le x acc) acc) := by
    intro l
    induction l with
    | nil => intro acc h; simpa using h
    | cons x t ih =>
      intro acc h
      exact ih _ (insertLe_pairwise le htot htrans x h)
  exact H l [] List.Pairwise.nil

theorem splitLinesGo_ne_nil (tc : TokenCount) (maxTok : Nat)
    (fpath : String) (ft : FType) (sfx : String)
    (rest buf : List String) (tks : Nat) (hbuf : buf ≠ []) :
    splitLinesGo tc maxTok fpath ft sfx rest buf tks ≠ [] := by
  induction rest generalizing buf tks with
  | nil => simp [splitLinesGo, List.isEmpty_iff, hbuf]
  | cons l ls ih =>
    simp only [splitLinesGo]
    split
    · split
      · simp
      · simp
    · exact ih (buf ++ [l]) _ (by simp)

/-- Every chunk `_split_by_lines` emits has exactly one file unit, and
either respects the token budget or consists of a single (possibly
truncated) line. -/
theorem splitLinesGo_shape (tc : TokenCount) (maxTok : Nat)
    (fpath : String) (ft : FType) (sfx : String) :
    ∀ (rest buf : List String) (tks : Nat),
      (∀ l ∈ rest, noNL l) → (∀ l ∈ buf, noNL l) →
      tks = sumLineTokens tc buf →
      (2 ≤ buf.length → tks ≤ maxTok) →
      ∀ c ∈ splitLinesGo tc maxTok fpath ft sfx rest buf tks,
        c.files.length = 1 ∧
          (c.tokens ≤ maxTok ∨ ∀ u ∈ c.files, noNL u.content) := by
  intro rest
  induction rest with
  | nil =>
    intro buf tks _ hbuf htks hbound c hc
    simp only [splitLinesGo] at hc
    split at hc
    · simp at hc
    · rename_i hbe
      simp only [List.mem_singleton] at hc
      subst hc
      refine ⟨rfl, ?_⟩
      match buf, hbuf with
      | [l], hbuf =>
        right
        intro u hu
        simp only [List.mem_singleton] at hu
        subst hu
        show noNL (joinNL [l])
        rw [joinNL_singleton]
        exact hbuf l (List.mem_singleton_self l)
      | l₁ :: l₂ :: t, hbuf =>
        exact Or.inl (hbound (by simp [Nat.le_add_left]))
  | cons l ls ih =>
    intro buf tks hrest hbuf htks hbound c hc
    simp only [splitLinesGo] at hc
    split at hc
    · rename_i hover
      split at hc
      · rename_i hbe
        rcases List.mem_cons.mp hc with rfl | hc2
        · refine ⟨rfl, Or.inr ?_⟩
          intro u hu
          simp only [List.mem_singleton] at hu
          subst hu
          exact noNL_pyTake (hrest l (List.mem_cons_self l ls)) _
        · exact ih buf tks (fun x hx => hrest x (List.mem_cons_of_mem l hx))
            hbuf htks hbound c hc2
      · rename_i hbe
        rcases List.mem_cons.mp hc with rfl | hc2
        · refine ⟨rfl, ?_⟩
          have hne : buf ≠ [] := by
            intro h; rw [h] at hbe; exact hbe rfl
          match buf, hne with
          | [x], _ =>
            right
            intro u hu
            simp only [List.mem_singleton] at hu
            subst hu
            show noNL (joinNL [x])
            rw [joinNL_singleton]
            exact hbuf x (List.mem_singleton_self x)
          | x₁ :: x₂ :: t, _ =>
            exact Or.inl (hbound (by simp [Nat.le_add_left]))
        · refine ih [l] _ (fun x hx => hrest x (List.mem_cons_of_mem l hx))
            ?_ ?_ ?_ c hc2
          · intro x hx
            simp only [List.mem_singleton] at hx
            subst hx
            exact hrest _ (List.mem_cons_self _ _)
          · simp [sumLineTokens]
          · intro h; simp at h
    · rename_i hfit
      refine ih (buf ++ [l]) _ (fun x hx => hrest x (List.mem_cons_of_mem l hx))
        ?_ ?_ ?_ c hc
      · intro x hx
        rcases List.mem_append.mp hx with hx | hx
        · exact hbuf x hx
        · simp only [List.mem_singleton] at hx
          subst hx
          exact hrest _ (List.mem_cons_self _ _)
      · simp [sumLineTokens, htks]
      · intro _
        exact Nat.le_of_not_lt hfit

/-- Round trip of the line splitter: if no line overflows the budget by
itself (so no truncation can occur), joining the emitted chunks with
newlines restores the buffered prefix followed by the remaining lines. -/
theorem splitLinesGo_roundtrip (tc : TokenCount) (maxTok : Nat)
    (fpath : String) (ft : FType) (sfx : String) :
    ∀ (rest buf : List String) (tks : Nat),
      (∀ l ∈ rest, tc (l ++ "\n") ≤ maxTok) →
      tks = sumLineTokens tc buf →
      joinNL ((splitLinesGo tc maxTok fpath ft sfx rest buf tks).map chunkText)
        = joinNL (buf ++ rest) := by
  intro rest
  induction rest with
  | nil =>
    intro buf tks _ htks
    simp only [splitLinesGo]
    split
    · rename_i hbe
      rw [List.isEmpty_iff.mp hbe]
      rfl
    · simp only [List.map_cons, List.map_nil, List.append_nil]
      rw [joinNL_singleton]
      rfl
  | cons l ls ih =>
    intro buf tks hrest htks
    simp only [splitLinesGo]
    split
    · rename_i hover
      split
      · rename_i hbe
        exfalso
        rw [List.isEmpty_iff.mp hbe] at htks
        simp [sumLineTokens] at htks
        subst htks
        exact absurd (hrest l (List.mem_cons_self l ls))
          (by simpa using hover)
      · rename_i hbe
        have hne : buf ≠ [] := by
          intro h; rw [h] at hbe; exact hbe rfl
        have hgo : splitLinesGo tc maxTok fpath ft sfx ls [l] (tc (l ++ "\n")) ≠ [] :=
          splitLinesGo_ne_nil tc maxTok fpath ft sfx ls [l] _ (by simp)
        have hmapne : (splitLinesGo tc maxTok fpath ft sfx ls [l]
            (tc (l ++ "\n"))).map chunkText ≠ [] := by
          intro h
          exact hgo (List.map_eq_nil_iff.mp h)
        rw [List.map_cons,
          joinNL_cons_of_ne_nil _ hmapne,
          ih [l] _ (fun x hx => hrest x (List.mem_cons_of_mem l hx))
            (by simp [sumLineTokens]),
          joinNL_append hne (List.cons_ne_nil l ls)]
        have hct : chunkText ⟨[⟨fpath ++ sfx, joinNL buf, ft⟩], tks⟩ = joinNL buf := by
          unfold chunkText
          simp only [List.map_cons, List.map_nil]
          exact joinNL_singleton _
        rw [hct]
        rfl
    · rename_i hfit
      rw [ih (buf ++ [l]) _ (fun x hx => hrest x (List.mem_cons_of_mem l hx))
        (by simp [sumLineTokens, htks])]
      simp

theorem PyNode.one_le_size (n : PyNode) : 1 ≤ n.size := by
  cases n <;> simp [PyNode.size]

theorem sizeL_children_lt (n : PyNode) : sizeL n.children < n.size := by
  cases n <;> simp [PyNode.size, PyNode.children]

theorem sizeL_append (a b : List PyNode) :
    sizeL (a ++ b) = sizeL a + sizeL b := by
  induction a with
  | nil => simp [sizeL]
  | cons n t ih => simp [sizeL, ih, Nat.add_assoc]

theorem sizeL_flatMap_children_lt {ns : List PyNode} (h : ns ≠ []) :
    sizeL (ns.flatMap PyNode.children) < sizeL ns := by
  induction ns with
  | nil => exact absurd rfl h
  | cons n t ih =>
    rw [List.flatMap_cons, sizeL_append]
    have h3 := sizeL_children_lt n
    cases t with
    | nil =>
      simp only [List.flatMap_nil, sizeL]
      omega
    | cons m r =>
      have h2 := ih (by simp)
      simp only [sizeL] at h2 ⊢
      omega

theorem dfsL_append (a b : List PyNode) :
    dfsL (a ++ b) = dfsL a ++ dfsL b := by
  induction a with
  | nil => simp [dfsL]
  | cons n t ih => simp [dfsL, ih]

theorem dfsL_decomp (ns : List PyNode) :
    List.Perm (dfsL ns) (ns ++ dfsL (ns.flatMap PyNode.children)) := by
  induction ns with
  | nil => simp [dfsL]
  | cons n t ih =>
    have hstep : dfsL (n :: t) = (n :: dfsL n.children) ++ dfsL t := by
      simp only [dfsL, dfsNodes]
    rw [List.flatMap_cons, dfsL_append, hstep, List.cons_append, List.cons_append]
    refine List.Perm.cons n ?_
    have s1 : List.Perm (dfsL n.children ++ dfsL t)
        (dfsL n.children ++ (t ++ dfsL (t.flatMap PyNode.children))) :=
      List.Perm.append_left _ ih
    have s2 : dfsL n.children ++ (t ++ dfsL (t.flatMap PyNode.children))
        = (dfsL n.children ++ t) ++ dfsL (t.flatMap PyNode.children) := by
      rw [List.append_assoc]
    have s3 : List.Perm ((dfsL n.children ++ t) ++ dfsL (t.flatMap PyNode.children))
        ((t ++ dfsL n.children) ++ dfsL (t.flatMap PyNode.children)) :=
      List.Perm.append_right _ List.perm_append_comm
    have s4 : (t ++ dfsL n.children) ++ dfsL (t.flatMap PyNode.children)
        = t ++ (dfsL n.children ++ dfsL (t.flatMap PyNode.children)) := by
      rw [List.append_assoc]
    exact s4 ▸ (s2 ▸ s1).trans s3

theorem astWalkF_perm_dfsL :
    ∀ (k : Nat) (ms : List PyNode), sizeL ms ≤ k →
      List.Perm (astWalkF k ms) (dfsL ms) := by
  intro k
  induction k with
  | zero =>
    intro ms hm
    cases ms with
    | nil => simp only [astWalkF, dfsL]; exact List.Perm.refl _
    | cons n t =>
      exfalso
      have := PyNode.one_le_size n
      simp only [sizeL] at hm
      omega
  | succ k ih =>
    intro ms hm
    cases ms with
    | nil => simp only [astWalkF, dfsL]; exact List.Perm.refl _
    | cons n t =>
      simp only [astWalkF]
      refine List.Perm.trans ?_ (dfsL_decomp (n :: t)).symm
      refine List.Perm.append_left (n :: t) (ih _ ?_)
      have hlt := sizeL_flatMap_children_lt (List.cons_ne_nil n t)
      simp only [sizeL] at hm hlt ⊢
      omega

theorem astWalk_perm_dfsL (ns : List PyNode) :
    List.Perm (astWalk ns) (dfsL ns) :=
  astWalkF_perm_dfsL (sizeL ns) ns (Nat.le_refl _)

/-! ### Shape of the splitter's chunks -/

theorem splitByLines_shape (tc : TokenCount) (maxTok : Nat)
    (fpath content : String) (ft : FType) (name : String) :
    ∀ c ∈ splitByLines tc maxTok fpath content ft name,
      c.files.length = 1 ∧
        (c.tokens ≤ maxTok ∨ ∀ u ∈ c.files, noNL u.content) := by
  intro c hc
  exact splitLinesGo_shape tc maxTok fpath ft (pathSuffix name)
    (pyLines content) [] 0
    (fun l hl => noNL_of_mem_pyLines hl)
    (fun l hl => absurd hl (List.not_mem_nil l))
    (by simp [sumLineTokens])
    (by intro h; simp at h) c hc

theorem splitLargeFile_shape (tc : TokenCount) (maxTok : Nat)
    (pyParse : PyParse) (fpath content : String) (ft : FType) :
    ∀ c ∈ splitLargeFile tc maxTok pyParse fpath content ft,
      c.files.length = 1 ∧
        (c.tokens ≤ maxTok ∨ ∀ u ∈ c.files, noNL u.content) := by
  intro c hc
  unfold splitLargeFile at hc
  split at hc
  · cases hp : pyParse content with
    | none =>
      rw [hp] at hc
      exact splitByLines_shape tc maxTok fpath content ft "" c hc
    | some body =>
      rw [hp] at hc
      rcases List.mem_flatMap.mp hc with ⟨sp, _, hcc⟩
      unfold processSpan at hcc
      split at hcc
      · exact splitByLines_shape tc maxTok fpath _ ft _ c hcc
      · rename_i hfit
        simp only [List.mem_singleton] at hcc
        subst hcc
        exact ⟨rfl, Or.inl (Nat.le_of_not_lt hfit)⟩
  · exact splitByLines_shape tc maxTok fpath content ft "" c hc

/-! ### Invariants of the builder loop -/

theorem createChunksGo_shape (tc : TokenCount) (maxTok : Nat)
    (pyParse : PyParse) (fsCode fsDocs : FileSys) :
    ∀ (ps : List String) (cur : List FileUnit) (tks : Nat),
      tks ≤ maxTok →
      ∀ c ∈ createChunksGo tc maxTok pyParse fsCode fsDocs ps cur tks,
        c.tokens ≤ maxTok ∨
          (c.files.length = 1 ∧ ∀ u ∈ c.files, noNL u.content) := by
  intro ps
  induction ps with
  | nil =>
    intro cur tks htks c hc
    simp only [createChunksGo] at hc
    split at hc
    · simp at hc
    · simp only [List.mem_singleton] at hc
      subst hc
      exact Or.inl htks
  | cons p t ih =>
    intro cur tks htks c hc
    simp only [createChunksGo] at hc
    split at hc
    · exact ih cur tks htks c hc
    · exact ih cur tks htks c hc
    · rename_i ft content _
      split at hc
      · rename_i hbig
        rcases List.mem_append.mp hc with hc1 | hc1
        · rcases List.mem_append.mp hc1 with hc2 | hc2
          · split at hc2
            · simp at hc2
            · simp only [List.mem_singleton] at hc2
              subst hc2
              exact Or.inl htks
          · rcases splitLargeFile_shape tc maxTok pyParse p content ft c hc2
              with ⟨hlen, hdisj⟩
            rcases hdisj with hle | hnl
            · exact Or.inl hle
            · exact Or.inr ⟨hlen, hnl⟩
        · exact ih [] 0 (Nat.zero_le _) c hc1
      · rename_i hbig
        split at hc
        · rename_i hover
          rcases List.mem_cons.mp hc with rfl | hc1
          · exact Or.inl htks
          · exact ih _ _ (Nat.le_of_not_lt hbig) c hc1
        · rename_i hover
          exact ih _ _ (Nat.le_of_not_lt hover) c hc

theorem createChunksGo_files_ne_nil (tc : TokenCount) (maxTok : Nat)
    (pyParse : PyParse) (fsCode fsDocs : FileSys) :
    ∀ (ps : List String) (cur : List FileUnit) (tks : Nat),
      (cur.isEmpty → tks = 0) →
      ∀ c ∈ createChunksGo tc maxTok pyParse fsCode fsDocs ps cur tks,
        c.files ≠ [] := by
  intro ps
  induction ps with
  | nil =>
    intro cur tks hinv c hc
    simp only [createChunksGo] at hc
    split at hc
    · simp at hc
    · rename_i hne
      simp only [List.mem_singleton] at hc
      subst hc
      intro h
      exact hne (by simp only [List.isEmpty_iff]; exact h)
  | cons p t ih =>
    intro cur tks hinv c hc
    simp only [createChunksGo] at hc
    split at hc
    · exact ih cur tks hinv c hc
    · exact ih cur tks hinv c hc
    · rename_i ft content _
      split at hc
      · rename_i hbig
        rcases List.mem_append.mp hc with hc1 | hc1
        · rcases List.mem_append.mp hc1 with hc2 | hc2
          · split at hc2
            · simp at hc2
            · rename_i hne
              simp only [List.mem_singleton] at hc2
              subst hc2
              intro h
              exact hne (by simp only [List.isEmpty_iff]; exact h)
          · have := (splitLargeFile_shape tc maxTok pyParse p content ft c hc2).1
            intro h
            rw [h] at this
            simp at this
        · exact ih [] 0 (fun _ => rfl) c hc1
      · rename_i hbig
        split at hc
        · rename_i hover
          rcases List.mem_cons.mp hc with rfl | hc1
          · intro h
            rw [List.isEmpty_iff] at hinv
            have h0 : tks = 0 := hinv h
            rw [h0] at hover
            simp at hover
            exact absurd hover (by omega)
          · exact ih _ _ (by intro h; simp at h) c hc1
        · exact ih _ _ (by intro h; simp at h) c hc

/-! ## Grouper lemmas -/

theorem fgContains_true_iff (fg : FG) (k : String) :
    fgContains fg k = true ↔ k ∈ fg.map Prod.fst := by
  induction fg with
  | nil => simp [fgContains, List.lookup]
  | cons kv t ih =>
    rcases kv with ⟨k2, v⟩
    by_cases h : k = k2
    · subst h
      simp [fgContains, List.lookup]
    · have hbeq : (k == k2) = false := by
        simp [h]
      simp only [fgContains, List.lookup, hbeq, List.map_cons, List.mem_cons]
      rw [← fgContains]
      simp [ih, h]

theorem fgUpdate_keys (fg : FG) (k : String) (v : List String) :
    (fgUpdate fg k v).map Prod.fst = fg.map Prod.fst := by
  unfold fgUpdate
  rw [List.map_map]
  refine List.map_congr_left ?_
  intro kv _
  by_cases h : kv.1 = k
  · simp [Function.comp, h]
  · simp [Function.comp, h]

theorem fgUpdate_length (fg : FG) (k : String) (v : List String) :
    (fgUpdate fg k v).length = fg.length := by
  simp [fgUpdate]

theorem fgContains_fgUpdate (fg : FG) (k k2 : String) (v : List String) :
    fgContains (fgUpdate fg k v) k2 = fgContains fg k2 := by
  by_cases h : fgContains fg k2 = true
  · have := (fgContains_true_iff fg k2).mp h
    rw [h]
    exact (fgContains_true_iff _ k2).mpr (by rw [fgUpdate_keys]; exact this)
  · rw [Bool.not_eq_true] at h
    rw [h]
    rw [Bool.eq_false_iff]
    intro h2
    have := (fgContains_true_iff _ k2).mp h2
    rw [fgUpdate_keys] at this
    exact absurd ((fgContains_true_iff fg k2).mpr this) (by simp [h])

theorem fgErase_length {fg : FG} {k : String}
    (h : fgContains fg k = true) : (fgErase fg k).length + 1 = fg.length := by
  induction fg with
  | nil => simp [fgContains, List.lookup] at h
  | cons kv t ih =>
    rcases kv with ⟨k2, v⟩
    simp only [fgErase]
    by_cases h2 : k2 = k
    · simp [h2]
    · have hbeq : (k == k2) = false := by
        simp
        intro hk
        exact absurd hk.symm h2
      simp only [fgContains, List.lookup, hbeq] at h
      rw [← fgContains] at h
      simp only [if_neg h2, List.length_cons]
      rw [← ih h]

theorem fgContains_fgErase {fg : FG} {k k2 : String} (hne : k2 ≠ k)
    (h : fgContains fg k2 = true) :
    fgContains (fgErase fg k) k2 = true := by
  induction fg with
  | nil => simp [fgContains, List.lookup] at h
  | cons kv t ih =>
    rcases kv with ⟨k3, v⟩
    simp only [fgErase]
    by_cases h3 : k3 = k
    · subst h3
      rw [if_pos rfl]
      have hbeq : (k2 == k3) = false := by simp [hne]
      simp only [fgContains, List.lookup, hbeq] at h
      simpa [fgContains] using h
    · simp only [if_neg h3]
      by_cases h4 : k2 = k3
      · subst h4
        simp [fgContains, List.lookup]
      · have hbeq : (k2 == k3) = false := by simp [h4]
        simp only [fgContains, List.lookup, hbeq] at h ⊢
        exact ih h

theorem fgContains_ne_nil {fg : FG} {k : String}
    (h : fgContains fg k = true) : fg ≠ [] := by
  intro h2
  subst h2
  simp [fgContains, List.lookup] at h

theorem applyMerges_length (ps : List (String × String)) :
    ∀ fg : FG, (applyMerges fg ps).1.length + (applyMerges fg ps).2
      = fg.length := by
  induction ps with
  | nil => intro fg; simp [applyMerges]
  | cons p rest ih =>
    intro fg
    rcases p with ⟨d1, d2⟩
    simp only [applyMerges]
    split
    · rename_i hlive
      rw [Bool.and_eq_true] at hlive
      have hupd : fgContains (fgUpdate fg d1 (setUnion (fgGet fg d1) (fgGet fg d2))) d2 = true := by
        rw [fgContains_fgUpdate]
        exact hlive.2
      have hlen := fgErase_length hupd
      rw [fgUpdate_length] at hlen
      have := ih (fgErase (fgUpdate fg d1 (setUnion (fgGet fg d1) (fgGet fg d2))) d2)
      dsimp only
      omega
    · exact ih fg

theorem applyMerges_count_zero {ps : List (String × String)} :
    ∀ {fg : FG}, (applyMerges fg ps).2 = 0 → (applyMerges fg ps).1 = fg := by
  induction ps with
  | nil => intro fg _; rfl
  | cons p rest ih =>
    intro fg h
    rcases p with ⟨d1, d2⟩
    simp only [applyMerges] at h ⊢
    split at h
    · simp at h
    · rename_i hdead
      rw [if_neg hdead]
      exact ih h

theorem addFileToGroup_keys_sub {fg : FG} {dir f x : String}
    (h : x ∈ (addFileToGroup fg dir f).map Prod.fst) :
    x ∈ fg.map Prod.fst ∨ x = dir := by
  induction fg with
  | nil =>
    simp [addFileToGroup] at h
    exact Or.inr h
  | cons kv t ih =>
    rcases kv with ⟨k, v⟩
    simp only [addFileToGroup] at h
    split at h
    · rename_i hk
      simp only [List.map_cons, List.mem_cons] at h
      rcases h with rfl | h
      · exact Or.inl (by simp)
      · exact Or.inl (by simp [h])
    · simp only [List.map_cons, List.mem_cons] at h
      rcases h with rfl | h
      · exact Or.inl (by simp)
      · rcases ih h with h2 | h2
        · exact Or.inl (by simp [h2])
        · exact Or.inr h2

theorem addFileToGroup_keys_nodup {fg : FG} {dir f : String}
    (h : (fg.map Prod.fst).Nodup) :
    ((addFileToGroup fg dir f).map Prod.fst).Nodup := by
  induction fg with
  | nil => simp [addFileToGroup]
  | cons kv t ih =>
    rcases kv with ⟨k, v⟩
    simp only [List.map_cons, List.nodup_cons] at h
    rcases h with ⟨hk, ht⟩
    simp only [addFileToGroup]
    split
    · simp only [List.map_cons, List.nodup_cons]
      exact ⟨hk, ht⟩
    · rename_i hne
      simp only [List.map_cons, List.nodup_cons]
      refine ⟨?_, ih ht⟩
      intro hmem
      rcases addFileToGroup_keys_sub hmem with h2 | h2
      · exact hk h2
      · exact hne h2

theorem initFileGroups_keys_nodup (st : RepoStructure) :
    ((initFileGroups st).map Prod.fst).Nodup := by
  unfold initFileGroups
  have H : ∀ (l : List (String × String)) (fg : FG),
      (fg.map Prod.fst).Nodup →
      ((l.foldl (fun fg pf => addFileToGroup fg pf.2 pf.1) fg).map Prod.fst).Nodup := by
    intro l
    induction l with
    | nil => intro fg h; simpa using h
    | cons pf t ih =>
      intro fg h
      exact ih _ (addFileToGroup_keys_nodup h)
  exact H st.files [] (by simp)

theorem fgErase_keys_sublist (fg : FG) (k : String) :
    ((fgErase fg k).map Prod.fst).Sublist (fg.map Prod.fst) := by
  induction fg with
  | nil => simp [fgErase]
  | cons kv t ih =>
    rcases kv with ⟨k2, v⟩
    simp only [fgErase]
    split
    · exact (List.sublist_cons_self _ _)
    · simpa using ih.cons₂ k2

theorem applyMerges_keys_nodup (ps : List (String × String)) :
    ∀ fg : FG, (fg.map Prod.fst).Nodup →
      ((applyMerges fg ps).1.map Prod.fst).Nodup := by
  induction ps with
  | nil => intro fg h; exact h
  | cons p rest ih =>
    intro fg h
    rcases p with ⟨d1, d2⟩
    simp only [applyMerges]
    split
    · refine ih _ ?_
      refine (fgErase_keys_sublist _ d2).nodup ?_
      rw [fgUpdate_keys]
      exact h
    · exact ih fg h

theorem applyMerges_ne_nil (ps : List (String × String)) :
    ∀ fg : FG, fg ≠ [] → (∀ p ∈ ps, p.1 ≠ p.2) →
      (applyMerges fg ps).1 ≠ [] := by
  induction ps with
  | nil => intro fg h _; exact h
  | cons p rest ih =>
    intro fg h hps
    rcases p with ⟨d1, d2⟩
    simp only [applyMerges]
    split
    · rename_i hlive
      rw [Bool.and_eq_true] at hlive
      refine ih _ ?_ (fun q hq => hps q (List.mem_cons_of_mem _ hq))
      refine fgContains_ne_nil (k := d1) ?_
      refine fgContains_fgErase ?_ ?_
      · exact hps (d1, d2) (List.mem_cons_self _ _)
      · rw [fgContains_fgUpdate]
        exact hlive.1
    · exact ih fg h (fun q hq => hps q (List.mem_cons_of_mem _ hq))

/-! ### The collected pairs relate distinct keys -/

theorem scanFiles_sub {imps : String → List String} {d1 d2 : String} :
    ∀ (fs : List String) (acc : List (String × String)) (p : String × String),
      p ∈ scanFiles imps d1 d2 acc fs → p ∈ acc ∨ p = (d1, d2) := by
  intro fs
  induction fs with
  | nil => intro acc p hp; exact Or.inl hp
  | cons f t ih =>
    intro acc p hp
    simp only [scanFiles] at hp
    by_cases hm : ((imps f).any (fun ip => impMatches ip d2)) = true
    · rw [if_pos hm] at hp
      by_cases he : (acc ++ [(d1, d2)]).isEmpty = true
      · rw [if_pos he] at hp
        rcases ih _ p hp with h | h
        · rcases List.mem_append.mp h with h2 | h2
          · exact Or.inl h2
          · exact Or.inr (List.mem_singleton.mp h2)
        · exact Or.inr h
      · rw [if_neg he] at hp
        rcases List.mem_append.mp hp with h2 | h2
        · exact Or.inl h2
        · exact Or.inr (List.mem_singleton.mp h2)
    · rw [if_neg hm] at hp
      by_cases he : acc.isEmpty = true
      · rw [if_pos he] at hp
        exact ih _ p hp
      · rw [if_neg he] at hp
        exact Or.inl hp

theorem scanD2_sub {fg : FG} {enum : SetEnum}
    {imps : String → List String} {d1 : String} :
    ∀ (d2s : List String) (acc : List (String × String)) (p : String × String),
      p ∈ scanD2 fg enum imps d1 acc d2s →
      p ∈ acc ∨ (p.1 = d1 ∧ p.2 ∈ d2s) := by
  intro d2s
  induction d2s with
  | nil => intro acc p hp; exact Or.inl hp
  | cons d2 rest ih =>
    intro acc p hp
    simp only [scanD2] at hp
    split at hp
    · split at hp
      · rcases ih _ p hp with h | h
        · rcases scanFiles_sub _ _ p h with h2 | h2
          · exact Or.inl h2
          · subst h2
            exact Or.inr ⟨rfl, by simp⟩
        · exact Or.inr ⟨h.1, List.mem_cons_of_mem _ h.2⟩
      · rcases scanFiles_sub _ _ p hp with h2 | h2
        · exact Or.inl h2
        · subst h2
          exact Or.inr ⟨rfl, by simp⟩
    · rcases ih _ p hp with h | h
      · exact Or.inl h
      · exact Or.inr ⟨h.1, List.mem_cons_of_mem _ h.2⟩

theorem scanD1_sub {fg : FG} {enum : SetEnum} {imps : String → List String} :
    ∀ (keys : List String) (acc : List (String × String)) (p : String × String),
      p ∈ scanD1 fg enum imps acc keys →
      p ∈ acc ∨ ∃ l1 d1 l2, keys = l1 ++ d1 :: l2 ∧ p.1 = d1 ∧ p.2 ∈ l2 := by
  intro keys
  induction keys with
  | nil => intro acc p hp; exact Or.inl hp
  | cons d1 rest ih =>
    intro acc p hp
    simp only [scanD1] at hp
    rcases ih _ p hp with h | h
    · rcases scanD2_sub _ _ p h with h2 | h2
      · exact Or.inl h2
      · exact Or.inr ⟨[], d1, rest, by simp, h2.1, h2.2⟩
    · rcases h with ⟨l1, d, l2, hkeys, hp1, hp2⟩
      exact Or.inr ⟨d1 :: l1, d, l2, by simp [hkeys], hp1, hp2⟩

theorem collectMerges_ne {fg : FG} {enum : SetEnum}
    {imps : String → List String}
    (hnd : (fg.map Prod.fst).Nodup) :
    ∀ p ∈ collectMerges fg enum imps, p.1 ≠ p.2 := by
  intro p hp
  rcases scanD1_sub _ _ p hp with h | h
  · simp at h
  · rcases h with ⟨l1, d1, l2, hkeys, hp1, hp2⟩
    rw [hkeys] at hnd
    intro heq
    have hsub : (d1 :: l2).Nodup := (List.nodup_append.mp hnd).2.1
    rcases List.nodup_cons.mp hsub with ⟨hnmem, _⟩
    rw [hp1] at heq
    rw [← heq] at hp2
    exact hnmem hp2

/-! ### The merge loop -/

theorem loop_count_length (enum : SetEnum) (imps : String → List String) :
    ∀ (k : Nat) (fg : FG),
      groupLoopCountF enum imps k fg
        + (groupLoopF enum imps k fg).length = fg.length := by
  intro k
  induction k with
  | zero => intro fg; simp [groupLoopF, groupLoopCountF]
  | succ k ih =>
    intro fg
    simp only [groupLoopF, groupLoopCountF]
    split
    · rename_i h0
      have := applyMerges_length (collectMerges fg enum imps) fg
      rw [h0] at this
      simpa using this
    · have hlen := applyMerges_length (collectMerges fg enum imps) fg
      have hih := ih (applyMerges fg (collectMerges fg enum imps)).1
      omega

theorem loop_preserves (enum : SetEnum) (imps : String → List String) :
    ∀ (k : Nat) (fg : FG), (fg.map Prod.fst).Nodup → fg ≠ [] →
      ((groupLoopF enum imps k fg).map Prod.fst).Nodup
        ∧ groupLoopF enum imps k fg ≠ [] := by
  intro k
  induction k with
  | zero => intro fg h1 h2; exact ⟨h1, h2⟩
  | succ k ih =>
    intro fg h1 h2
    simp only [groupLoopF]
    split
    · rename_i h0
      rw [applyMerges_count_zero h0]
      exact ⟨h1, h2⟩
    · refine ih _ ?_ ?_
      · exact applyMerges_keys_nodup _ fg h1
      · exact applyMerges_ne_nil _ fg h2 (collectMerges_ne h1)

theorem loop_fixed_point (enum : SetEnum) (imps : String → List String) :
    ∀ (k : Nat) (fg : FG), fg.length + 1 ≤ k →
      (applyMerges (groupLoopF enum imps k fg)
        (collectMerges (groupLoopF enum imps k fg) enum imps)).2 = 0 := by
  intro k
  induction k with
  | zero => intro fg h; omega
  | succ k ih =>
    intro fg h
    simp only [groupLoopF]
    split
    · rename_i h0
      rw [applyMerges_count_zero h0]
      exact h0
    · rename_i h0
      refine ih _ ?_
      have := applyMerges_length (collectMerges fg enum imps) fg
      omega

/-! ## Claim theorems -/

/-- C1: every chunk produced by `_create_chunks` — including those the
two splitting helpers append — either has `tokens ≤ MAX_TOKENS_PER_REQUEST`
or is a single-unit chunk whose one unit is a single (possibly
truncated) line, i.e. a unit line-splitting cannot reduce further. -/
theorem chunk_token_budget (tc : TokenCount) (maxTok : Nat)
    (pyParse : PyParse) (fsCode fsDocs : FileSys) (paths : List String)
    (fpath content : String) (ft : FType) (name : String) :
    (∀ c ∈ createChunks tc maxTok pyParse fsCode fsDocs paths,
        c.tokens ≤ maxTok ∨
          (c.files.length = 1 ∧ ∀ u ∈ c.files, noNL u.content)) ∧
    (∀ c ∈ splitLargeFile tc maxTok pyParse fpath content ft,
        c.tokens ≤ maxTok ∨
          (c.files.length = 1 ∧ ∀ u ∈ c.files, noNL u.content)) ∧
    (∀ c ∈ splitByLines tc maxTok fpath content ft name,
        c.tokens ≤ maxTok ∨
          (c.files.length = 1 ∧ ∀ u ∈ c.files, noNL u.content)) := by
  refine ⟨?_, ?_, ?_⟩
  · intro c hc
    exact createChunksGo_shape tc maxTok pyParse fsCode fsDocs paths [] 0
      (Nat.zero_le _) c hc
  · intro c hc
    rcases splitLargeFile_shape tc maxTok pyParse fpath content ft c hc
      with ⟨hlen, hd⟩
    rcases hd with hd | hd
    · exact Or.inl hd
    · exact Or.inr ⟨hlen, hd⟩
  · intro c hc
    rcases splitByLines_shape tc maxTok fpath content ft name c hc
      with ⟨hlen, hd⟩
    rcases hd with hd | hd
    · exact Or.inl hd
    · exact Or.inr ⟨hlen, hd⟩

theorem chunk_token_budget_witness :
    (⟨[⟨"a.txt", "hi", FType.code⟩], 15⟩ : Chunk).tokens ≤ 100 ∨
      ((⟨[⟨"a.txt", "hi", FType.code⟩], 15⟩ : Chunk).files.length = 1 ∧
        ∀ u ∈ (⟨[⟨"a.txt", "hi", FType.code⟩], 15⟩ : Chunk).files,
          noNL u.content) :=
  (chunk_token_budget tcLen 100 parseNone fsSmall fsNone ["a.txt"]
    "x" "y" FType.doc "").1 _ (by decide)

/-- C9: every chunk appended by any flush or splitting path carries at
least one file unit. -/
theorem chunk_files_nonempty (tc : TokenCount) (maxTok : Nat)
    (pyParse : PyParse) (fsCode fsDocs : FileSys) (paths : List String)
    (fpath content : String) (ft : FType) (name : String) :
    (∀ c ∈ createChunks tc maxTok pyParse fsCode fsDocs paths, c.files ≠ []) ∧
    (∀ c ∈ splitLargeFile tc maxTok pyParse fpath content ft, c.files ≠ []) ∧
    (∀ c ∈ splitByLines tc maxTok fpath content ft name, c.files ≠ []) := by
  refine ⟨?_, ?_, ?_⟩
  · intro c hc
    exact createChunksGo_files_ne_nil tc maxTok pyParse fsCode fsDocs paths
      [] 0 (fun _ => rfl) c hc
  · intro c hc
    have := (splitLargeFile_shape tc maxTok pyParse fpath content ft c hc).1
    intro h
    rw [h] at this
    simp at this
  · intro c hc
    have := (splitByLines_shape tc maxTok fpath content ft name c hc).1
    intro h
    rw [h] at this
    simp at this

theorem chunk_files_nonempty_witness :
    (⟨[⟨"t.md", "ok", FType.code⟩], 14⟩ : Chunk).files ≠ [] :=
  (chunk_files_nonempty tcLen 100 parseNone fsMixed fsNone ["t.md"]
    "x" "y" FType.doc "").1 _ (by decide)

/-- C7: each input path is resolved against the code root first (tagged
`code`), else the docs root (tagged `doc`); a path present under
neither root, or whose file does not decode as text, is skipped and
contributes to no chunk. -/
theorem path_resolution (tc : TokenCount) (maxTok : Nat)
    (pyParse : PyParse) (fsCode fsDocs : FileSys)
    (p : String) (ps : List String) (cur : List FileUnit) (tks : Nat) :
    (fsCode p = none → fsDocs p = none →
      createChunksGo tc maxTok pyParse fsCode fsDocs (p :: ps) cur tks
        = createChunksGo tc maxTok pyParse fsCode fsDocs ps cur tks) ∧
    (fsCode p = some none →
      createChunksGo tc maxTok pyParse fsCode fsDocs (p :: ps) cur tks
        = createChunksGo tc maxTok pyParse fsCode fsDocs ps cur tks) ∧
    (fsCode p = none → fsDocs p = some none →
      createChunksGo tc maxTok pyParse fsCode fsDocs (p :: ps) cur tks
        = createChunksGo tc maxTok pyParse fsCode fsDocs ps cur tks) ∧
    (∀ content, fsCode p = some (some content) →
      resolveFile fsCode fsDocs p = some (FType.code, some content)) ∧
    (∀ content, fsCode p = none → fsDocs p = some (some content) →
      resolveFile fsCode fsDocs p = some (FType.doc, some content)) := by
  refine ⟨?_, ?_, ?_, ?_, ?_⟩
  · intro h1 h2
    simp [createChunksGo, resolveFile, h1, h2]
  · intro h1
    simp [createChunksGo, resolveFile, h1]
  · intro h1 h2
    simp [createChunksGo, resolveFile, h1, h2]
  · intro content h1
    simp [resolveFile, h1]
  · intro content h1 h2
    simp [resolveFile, h1, h2]

theorem path_resolution_witness :
    (createChunksGo tcLen 100 parseNone fsMixed fsNone ["absent"] [] 0
      = createChunksGo tcLen 100 parseNone fsMixed fsNone [] [] 0) ∧
    (createChunksGo tcLen 100 parseNone fsMixed fsNone ["b.bin"] [] 0
      = createChunksGo tcLen 100 parseNone fsMixed fsNone [] [] 0) ∧
    resolveFile fsMixed fsNone "t.md" = some (FType.code, some "ok") ∧
    resolveFile fsNone fsMixed "t.md" = some (FType.doc, some "ok") :=
  ⟨(path_resolution tcLen 100 parseNone fsMixed fsNone "absent" [] [] 0).1
      (by decide) (by decide),
   (path_resolution tcLen 100 parseNone fsMixed fsNone "b.bin" [] [] 0).2.1
      (by decide),
   (path_resolution tcLen 100 parseNone fsMixed fsNone "t.md" [] [] 0).2.2.2.1
      "ok" (by decide),
   (path_resolution tcLen 100 parseNone fsNone fsMixed "t.md" [] [] 0).2.2.2.2
      "ok" (by decide) (by decide)⟩

/-- C3 counterexample: a parseable oversized `.py` file whose first
line lies outside every definition span; the AST splitting path keeps
only the spans, so concatenating the produced chunks does not restore
the file (no truncation is involved: the lost line simply belongs to no
chunk). -/
theorem splitter_roundtrip_counterexample :
    tcLen (frameFile "a.py" contentPre) > 40 ∧
    joinNL ((splitLargeFile tcLen 40 parsePre "a.py" contentPre
      FType.code).map chunkText) ≠ contentPre := by decide

/-- C3 (amended): the round trip holds for line-based splitting — the
path taken by every non-`.py`, non-`code`, or unparseable file, and by
over-budget sub-spans — whenever no single line overflows the budget by
itself (the truncation case the claim already excepts). The AST path
instead emits only definition spans. -/
theorem splitter_line_roundtrip (tc : TokenCount) (maxTok : Nat)
    (fpath content : String) (ft : FType) (name : String)
    (h : ∀ l ∈ pyLines content, tc (l ++ "\n") ≤ maxTok) :
    joinNL ((splitByLines tc maxTok fpath content ft name).map chunkText)
      = content := by
  have hrt := splitLinesGo_roundtrip tc maxTok fpath ft (pathSuffix name)
    (pyLines content) [] 0 h (by simp [sumLineTokens])
  rw [List.nil_append] at hrt
  rw [splitByLines, hrt, joinNL_pyLines]

theorem splitter_line_roundtrip_witness :
    (∀ l ∈ pyLines "ab\ncd\nef", tcLen (l ++ "\n") ≤ 50) ∧
    joinNL ((splitByLines tcLen 50 "n.txt" "ab\ncd\nef" FType.doc "").map
      chunkText) = "ab\ncd\nef" :=
  ⟨by decide,
   splitter_line_roundtrip tcLen 50 "n.txt" "ab\ncd\nef" FType.doc ""
     (by decide)⟩

/-- C2 counterexample: `ast.walk` visits the whole tree, so a nested
method is collected alongside its class: the splitter's span list is
not the top-level list, and splitting an oversized file with one class
containing one method emits two (overlapping) chunks where top-level
splitting would emit one. -/
theorem ast_split_top_level_counterexample :
    collectSpans bodyNested 3 ≠ topLevelSpans bodyNested 3 ∧
    tcLen (frameFile "b.py" contentNested) > 30 ∧
    (splitLargeFile tcLen 30 parseNested "b.py" contentNested
      FType.code).length = 2 ∧
    (topLevelSpans bodyNested 3).length = 1 := by decide

/-- C2 (amended): for a parseable `.py` code file the splitter's span
list is exactly the function and class definitions at EVERY nesting
depth (as `ast.walk` reaches them), sorted by start line; labels and
the end-line default are as the claim states (see `nodeFnSpan`,
`nodeClsSpan`). -/
theorem collectSpans_all_defs_sorted (body : List PyNode) (total : Nat) :
    List.Pairwise (fun a b : Span => a.1 ≤ b.1) (collectSpans body total) ∧
    List.Perm (collectSpans body total) (allSpansDfs body total) := by
  have htot : ∀ a b : Span, spanLe a b || spanLe b a := by
    intro a b
    rcases Nat.le_total a.1 b.1 with h | h <;> simp [spanLe, h]
  have htrans : ∀ a b c : Span,
      spanLe a b = true → spanLe b c = true → spanLe a c = true := by
    intro a b c hab hbc
    simp only [spanLe, decide_eq_true_eq] at *
    omega
  constructor
  · have h := pySorted_pairwise spanLe htot htrans
      ((astWalkModule body).filterMap (nodeFnSpan total) ++
        (astWalkModule body).filterMap (nodeClsSpan total))
    exact h.imp (fun hab => by simpa [spanLe] using hab)
  · refine (pySorted_perm spanLe _).trans ?_
    have hw : List.Perm (astWalk [PyNode.stmtNode body])
        (dfsL [PyNode.stmtNode body]) := astWalk_perm_dfsL _
    have hd : dfsL [PyNode.stmtNode body]
        = PyNode.stmtNode body :: dfsL body := by
      simp only [dfsL, dfsNodes, PyNode.children, List.append_nil]
    rw [hd] at hw
    have hfn : List.Perm ((astWalkModule body).filterMap (nodeFnSpan total))
        ((dfsL body).filterMap (nodeFnSpan total)) := by
      have h2 := hw.filterMap (nodeFnSpan total)
      simpa [astWalkModule, List.filterMap_cons, nodeFnSpan] using h2
    have hcl : List.Perm ((astWalkModule body).filterMap (nodeClsSpan total))
        ((dfsL body).filterMap (nodeClsSpan total)) := by
      have h2 := hw.filterMap (nodeClsSpan total)
      simpa [astWalkModule, List.filterMap_cons, nodeClsSpan] using h2
    exact hfn.append hcl

/-! ### Code-point order is total and transitive -/

theorem chListLe_total : ∀ a b : List Char, chListLe a b || chListLe b a := by
  intro a
  induction a with
  | nil => intro b; simp [chListLe]
  | cons x xs ih =>
    intro b
    cases b with
    | nil => simp [chListLe]
    | cons y ys =>
      simp only [chListLe]
      rcases Nat.lt_trichotomy x.toNat y.toNat with h | h | h
      · rw [if_pos h]
        simp
      · rw [if_neg (by omega), if_neg (by omega), if_neg (by omega),
          if_neg (by omega)]
        exact ih ys
      · rw [if_neg (by omega), if_pos h, if_pos h]
        simp

theorem chListLe_trans : ∀ a b c : List Char,
    chListLe a b = true → chListLe b c = true → chListLe a c = true := by
  intro a
  induction a with
  | nil => intro b c _ _; simp [chListLe]
  | cons x xs ih =>
    intro b c h1 h2
    cases b with
    | nil => simp [chListLe] at h1
    | cons y ys =>
      cases c with
      | nil => simp [chListLe] at h2
      | cons z zs =>
        simp only [chListLe] at h1 h2 ⊢
        by_cases hpq : x.toNat < y.toNat
        · rw [if_pos hpq] at h1
          by_cases hqr : y.toNat < z.toNat
          · rw [if_pos (by omega)]
          · by_cases hrq : z.toNat < y.toNat
            · rw [if_neg hqr, if_pos hrq] at h2
              exact absurd h2 (by simp)
            · rw [if_pos (by omega)]
        · by_cases hqp : y.toNat < x.toNat
          · rw [if_neg hpq, if_pos hqp] at h1
            exact absurd h1 (by simp)
          · rw [if_neg hpq, if_neg hqp] at h1
            by_cases hqr : y.toNat < z.toNat
            · rw [if_pos (by omega)]
            · by_cases hrq : z.toNat < y.toNat
              · rw [if_neg hqr, if_pos hrq] at h2
                exact absurd h2 (by simp)
              · rw [if_neg hqr, if_neg hrq] at h2
                rw [if_neg (by omega), if_neg (by omega)]
                exact ih ys zs h1 h2

/-- C4 counterexample: a call that succeeds with well-formed JSON
lacking the `gaps` key is recorded exactly as returned — no `error`
key, no `structured: false` — not as the error-shaped record the claim
describes; it is only skipped later, at synthesis. -/
theorem model_error_recording_counterexample :
    analyzeChunk mcOkEmpty jpNoGaps chunkC4
      = ⟨some "s", none, none, none, none⟩ ∧
    (analyzeChunk mcOkEmpty jpNoGaps chunkC4).error = none ∧
    (analyzeChunk mcOkEmpty jpNoGaps chunkC4).structured ≠ some false := by
  decide

/-- C4 (amended): a raised exception or malformed JSON yields the
error record `{error, files_analyzed, structured:false}` and the loop
continues with the remaining chunks; a well-formed response without
`gaps` is recorded unchanged and merely skipped by synthesis
(contributing neither gaps nor analyzed files). -/
theorem model_error_recording (mc : ModelCall) (jp : JsonParse) (ch : Chunk)
    (pre post : List Chunk) (rs1 rs2 : List AnalysisResult)
    (r : AnalysisResult) :
    (∀ e, mc ch.files = .error e →
      analyzeChunk mc jp ch = errResult ch e) ∧
    (∀ txt e, mc ch.files = .ok txt → jp txt = .error e →
      analyzeChunk mc jp ch = errResult ch e) ∧
    (runAnalysis mc jp (pre ++ ch :: post)
      = runAnalysis mc jp pre ++ analyzeChunk mc jp ch :: runAnalysis mc jp post) ∧
    (r.gaps = none ∨ r.error ≠ none →
      synthesizeResults (rs1 ++ r :: rs2) = synthesizeResults (rs1 ++ rs2)) := by
  refine ⟨?_, ?_, ?_, ?_⟩
  · intro e h
    simp [analyzeChunk, h]
  · intro txt e h1 h2
    simp [analyzeChunk, h1, h2]
  · simp [runAnalysis]
  · intro h
    have hcontr : contributes r = false := by
      rcases h with h | h
      · simp [contributes, h]
      · simp only [contributes]
        rcases hr : r.error with _ | e
        · exact absurd hr h
        · simp
    have hf : (rs1 ++ r :: rs2).filter contributes
        = (rs1 ++ rs2).filter contributes := by
      simp [List.filter_append, List.filter_cons, hcontr]
    unfold synthesizeResults
    rw [hf]

theorem model_error_recording_witness :
    analyzeChunk mcErr jpNoGaps chunkC4 = errResult chunkC4 "boom" ∧
    analyzeChunk mcOkEmpty jpBad chunkC4 = errResult chunkC4 "bad json" ∧
    synthesizeResults [(⟨some "s", none, none, none, none⟩ : AnalysisResult)]
      = synthesizeResults [] :=
  ⟨(model_error_recording mcErr jpNoGaps chunkC4 [] [] [] []
      ⟨none, none, none, none, none⟩).1 "boom" rfl,
   (model_error_recording mcOkEmpty jpBad chunkC4 [] [] [] []
      ⟨none, none, none, none, none⟩).2.1 "{}" "bad json" rfl rfl,
   (model_error_recording mcOkEmpty jpBad chunkC4 [] [] [] []
      ⟨some "s", none, none, none, none⟩).2.2.2 (Or.inl rfl)⟩

/-- C8: synthesis sorts gaps by non-increasing severity (formally:
non-decreasing severity rank, over every input), and the claim's
scenario — severities low, critical, medium, high in — comes out
critical, high, medium, low. -/
theorem severity_ordering (rs : List AnalysisResult) :
    List.Pairwise (fun a b => sevKey a ≤ sevKey b)
      (synthesizeResults rs).gaps ∧
    (synthesizeResults resultsSevs).gaps.map (·.severity)
      = [some "critical", some "high", some "medium", some "low"] := by
  constructor
  · have hg : (synthesizeResults rs).gaps
        = pySorted gapLe
            ((rs.filter contributes).flatMap (fun r => r.gaps.getD [])) := rfl
    rw [hg]
    have htot : ∀ a b : Gap, gapLe a b || gapLe b a := by
      intro a b
      rcases Nat.le_total (sevKey a) (sevKey b) with h | h <;> simp [gapLe, h]
    have htrans : ∀ a b c : Gap,
        gapLe a b = true → gapLe b c = true → gapLe a c = true := by
      intro a b c hab hbc
      simp only [gapLe, decide_eq_true_eq] at *
      omega
    have h := pySorted_pairwise gapLe htot htrans
      ((rs.filter contributes).flatMap (fun r => r.gaps.getD []))
    exact h.imp (fun hab => by simpa [gapLe] using hab)
  · decide

set_option maxRecDepth 8000 in
/-- C10: universally — every contributing gap, whatever its severity,
lands in the synthesized gap list and so in the summary's total count;
a gap whose severity is present but none of critical/high/medium/low
has sort rank 3, the rank of low; every rendered section of the report
(the listing consists of exactly the sections of the four known
severities) is unchanged by removing such a gap, so it appears in none
of them; and a gap with no severity key falls in the low bucket and is
rendered by the Low Severity section.  The concrete `resultsMixed` run
instantiates the rule. -/
theorem unknown_severity_rendering
    (rs : List AnalysisResult) (g g0 : Gap) (sv : String)
    (gaps1 gaps2 : List Gap) (res : SynthResult)
    (hsv : g.severity = some sv)
    (h1 : sv ≠ "critical") (h2 : sv ≠ "high")
    (h3 : sv ≠ "medium") (h4 : sv ≠ "low")
    (habs : g0.severity = none) :
    (∀ x, x ∈ (rs.filter contributes).flatMap (fun r => r.gaps.getD [])
      ↔ x ∈ (synthesizeResults rs).gaps) ∧
    (synthesizeResults rs).summary
      = "Analyzed " ++ toString (synthesizeResults rs).files_analyzed.length
        ++ " files and found " ++ toString (synthesizeResults rs).gaps.length
        ++ " gaps. Priority: "
        ++ toString ((synthesizeResults rs).gaps.filter
            (fun x => x.severity == some "critical")).length
        ++ " critical and "
        ++ toString ((synthesizeResults rs).gaps.filter
            (fun x => x.severity == some "high")).length
        ++ " high-severity issues require immediate attention." ∧
    sevKey g = 3 ∧
    (∀ sv', sv' = "critical" ∨ sv' = "high" ∨ sv' = "medium" ∨ sv' = "low" →
      sevSection (gaps1 ++ g :: gaps2) sv' = sevSection (gaps1 ++ gaps2) sv') ∧
    (res.gaps ≠ [] →
      generateMarkdownReport res
        = "# Code-Documentation Gap Analysis Report\n\n## Summary\n\n"
            ++ res.summary ++ "\n\n" ++ "## Identified Gaps\n\n"
            ++ String.join (["critical", "high", "medium", "low"].map
                (sevSection res.gaps))) ∧
    (g0.severity.getD "low" == "low") = true ∧
    g0 ∈ (gaps1 ++ g0 :: gaps2).filter
      (fun x => x.severity.getD "low" == "low") ∧
    sevSection (gaps1 ++ g0 :: gaps2) "low"
      = "### Low Severity\n\n"
        ++ String.join (((gaps1 ++ g0 :: gaps2).filter
            (fun x => x.severity.getD "low" == "low")).map gapBlock) ∧
    (synthesizeResults resultsMixed).gaps = [gapH, gapU, gapV] ∧
    (generateMarkdownReport (synthesizeResults resultsMixed)).data.count 'U' = 0 ∧
    (generateMarkdownReport (synthesizeResults resultsMixed)).data.count 'V' = 1 := by
  have htrue : (g0.severity.getD "low" == "low") = true := by
    rw [habs]
    rfl
  have hmem : g0 ∈ (gaps1 ++ g0 :: gaps2).filter
      (fun x => x.severity.getD "low" == "low") :=
    List.mem_filter.mpr ⟨by simp, htrue⟩
  refine ⟨?_, ?_, ?_, ?_, ?_, htrue, hmem, ?_, by decide, by decide, by decide⟩
  · intro x
    have hgaps : (synthesizeResults rs).gaps
        = pySorted gapLe
            ((rs.filter contributes).flatMap (fun r => r.gaps.getD [])) := rfl
    rw [hgaps]
    exact ((pySorted_perm gapLe _).mem_iff).symm
  · have hfa : (synthesizeResults rs).files_analyzed.length
        = (((rs.filter contributes).flatMap
            (fun r => r.files_analyzed.getD [])).dedup).length :=
      (pySorted_perm strLe _).length_eq
    have hgl : (synthesizeResults rs).gaps.length
        = ((rs.filter contributes).flatMap (fun r => r.gaps.getD [])).length :=
      (pySorted_perm gapLe _).length_eq
    rw [hfa, hgl]
    rfl
  · unfold sevKey
    rw [hsv]
    simp only [Option.getD_some]
  · intro sv' hsv'
    have hfalse : (g.severity.getD "low" == sv') = false := by
      rw [hsv]
      simp only [Option.getD_some]
      rcases hsv' with rfl | rfl | rfl | rfl
      · exact beq_eq_false_iff_ne.mpr h1
      · exact beq_eq_false_iff_ne.mpr h2
      · exact beq_eq_false_iff_ne.mpr h3
      · exact beq_eq_false_iff_ne.mpr h4
    simp [sevSection, List.filter_append, List.filter_cons, hfalse]
  · intro hne
    have hne2 : ¬ res.gaps.isEmpty = true := by
      simp only [List.isEmpty_iff]
      exact hne
    simp only [generateMarkdownReport]
    rw [if_neg hne2]
  · have hne : ¬ ((gaps1 ++ g0 :: gaps2).filter
        (fun x => x.severity.getD "low" == "low")).isEmpty = true := by
      simp only [List.isEmpty_iff]
      intro h
      rw [h] at hmem
      exact List.not_mem_nil g0 hmem
    simp only [sevSection]
    rw [if_neg hne]
    rfl

theorem unknown_severity_rendering_witness :
    sevKey gapU = 3 ∧
    sevSection [gapU] "critical" = sevSection [] "critical" ∧
    (gapV.severity.getD "low" == "low") = true ∧
    generateMarkdownReport (synthesizeResults resultsMixed)
      = "# Code-Documentation Gap Analysis Report\n\n## Summary\n\n"
          ++ (synthesizeResults resultsMixed).summary ++ "\n\n"
          ++ "## Identified Gaps\n\n"
          ++ String.join (["critical", "high", "medium", "low"].map
              (sevSection (synthesizeResults resultsMixed).gaps)) :=
  ⟨(unknown_severity_rendering resultsMixed gapU gapV "banana" [] []
      (synthesizeResults resultsMixed) rfl (by decide) (by decide)
      (by decide) (by decide) rfl).2.2.1,
   (unknown_severity_rendering resultsMixed gapU gapV "banana" [] []
      (synthesizeResults resultsMixed) rfl (by decide) (by decide)
      (by decide) (by decide) rfl).2.2.2.1 "critical" (Or.inl rfl),
   (unknown_severity_rendering resultsMixed gapU gapV "banana" [] []
      (synthesizeResults resultsMixed) rfl (by decide) (by decide)
      (by decide) (by decide) rfl).2.2.2.2.2.1,
   (unknown_severity_rendering resultsMixed gapU gapV "banana" [] []
      (synthesizeResults resultsMixed) rfl (by decide) (by decide)
      (by decide) (by decide) rfl).2.2.2.2.1 (by decide)⟩

set_option maxRecDepth 8000 in
/-- C5 counterexample: two runs on the same repositories (the same
structure, the same sets, a permutation-only change of the runtime's
set-iteration order) with the same deterministic model stub produce
different reports: `list(set)` keeps iteration order, it does not
canonicalise. -/
theorem pipeline_determinism_counterexample :
    List.Perm (List.reverse ["a", "b"]) ["a", "b"] ∧
    runPipeline tcLen 1000 parseNone fsAB fsNone stAB id mcEcho jpEcho
      ≠ runPipeline tcLen 1000 parseNone fsAB fsNone stAB List.reverse
          mcEcho jpEcho := by
  decide

/-- C5 (amended): the pipeline is deterministic relative to the
runtime's set-iteration order — two runs whose iteration orders agree
produce byte-identical reports — and the synthesized `files_analyzed`
sequence alone is canonically sorted; the set-to-sequence conversions
themselves follow iteration order and are not canonical. -/
theorem pipeline_deterministic_given_enum (tc : TokenCount) (maxTok : Nat)
    (pyParse : PyParse) (fsC fsD : FileSys) (st : RepoStructure)
    (mc : ModelCall) (jp : JsonParse) (enum1 enum2 : SetEnum)
    (h : ∀ l, enum1 l = enum2 l) :
    runPipeline tc maxTok pyParse fsC fsD st enum1 mc jp
      = runPipeline tc maxTok pyParse fsC fsD st enum2 mc jp ∧
    (∀ rs, List.Pairwise (fun a b => strLe a b = true)
      (synthesizeResults rs).files_analyzed) := by
  constructor
  · have he : enum1 = enum2 := funext h
    rw [he]
  · intro rs
    have hfa : (synthesizeResults rs).files_analyzed
        = pySorted strLe
            (((rs.filter contributes).flatMap
              (fun r => r.files_analyzed.getD [])).dedup) := rfl
    rw [hfa]
    exact pySorted_pairwise strLe
      (fun a b => chListLe_total a.data b.data)
      (fun a b c => chListLe_trans a.data b.data c.data) _

theorem pipeline_deterministic_given_enum_witness :
    runPipeline tcLen 1000 parseNone fsAB fsNone stAB id mcEcho jpEcho
      = runPipeline tcLen 1000 parseNone fsAB fsNone stAB id mcEcho jpEcho ∧
    List.Pairwise (fun a b => strLe a b = true)
      (synthesizeResults resultsMixed).files_analyzed :=
  ⟨(pipeline_deterministic_given_enum tcLen 1000 parseNone fsAB fsNone stAB
      mcEcho jpEcho id id (fun _ => rfl)).1,
   (pipeline_deterministic_given_enum tcLen 1000 parseNone fsAB fsNone stAB
      mcEcho jpEcho id id (fun _ => rfl)).2 resultsMixed⟩

/-- C6: each executed merge strictly decreases the number of live
groups; the loop's total merge count is at most the initial group
count minus one; and the loop halts at a fixed point where a full
pairwise scan yields no executable merge. -/
theorem grouper_terminates (st : RepoStructure) (enum : SetEnum)
    (fg : FG) (d1 d2 : String) :
    (fgContains fg d1 = true → fgContains fg d2 = true →
      (applyMerges fg [(d1, d2)]).1.length < fg.length) ∧
    groupMergeCount st enum ≤ (initFileGroups st).length - 1 ∧
    (applyMerges
      (groupLoopF enum (importsOf st) ((initFileGroups st).length + 1)
        (initFileGroups st))
      (collectMerges
        (groupLoopF enum (importsOf st) ((initFileGroups st).length + 1)
          (initFileGroups st)) enum (importsOf st))).2 = 0 := by
  refine ⟨?_, ?_, ?_⟩
  · intro h1 h2
    have hlen := applyMerges_length [(d1, d2)] fg
    have hcnt : (applyMerges fg [(d1, d2)]).2 = 1 := by
      simp [applyMerges, h1, h2]
    have hpos : 1 ≤ fg.length := by
      have := fgContains_ne_nil h1
      cases fg with
      | nil => exact absurd rfl this
      | cons a t => simp
    omega
  · by_cases hinit : initFileGroups st = []
    · unfold groupMergeCount
      rw [hinit]
      simp [groupLoopF, groupLoopCountF, collectMerges, scanD1, applyMerges]
    · have hnodup := initFileGroups_keys_nodup st
      have hcl := loop_count_length enum (importsOf st)
        ((initFileGroups st).length + 1) (initFileGroups st)
      have hpres := loop_preserves enum (importsOf st)
        ((initFileGroups st).length + 1) (initFileGroups st) hnodup hinit
      have hfin : 0 < (groupLoopF enum (importsOf st)
          ((initFileGroups st).length + 1) (initFileGroups st)).length :=
        List.length_pos.mpr hpres.2
      have hgm : groupMergeCount st enum
          = groupLoopCountF enum (importsOf st)
              ((initFileGroups st).length + 1) (initFileGroups st) := rfl
      rw [hgm]
      omega
  · exact loop_fixed_point enum (importsOf st)
      ((initFileGroups st).length + 1) (initFileGroups st) (Nat.le_refl _)

theorem grouper_terminates_witness :
    (applyMerges fgEx [("a", "b")]).1.length < fgEx.length ∧
    groupMergeCount stImp id ≤ (initFileGroups stImp).length - 1 :=
  ⟨(grouper_terminates stImp id fgEx "a" "b").1 (by decide) (by decide),
   (grouper_terminates stImp id fgEx "a" "b").2.1⟩

end CodeGap
